import Mathlib

/-!
Shallow embedding of the three configuration scripts of the repository:

* `merge-pyproject-toml.py` — merges an existing `pyproject.toml` with a
  template one (`merge_pyproject_toml`, `_merge_dict_recursive`,
  `_extract_coverage_settings`, `_merge_pytest_selectively`);
* `fix-duplicate-toml-sections.py` — merges duplicated
  `[tool.pytest.ini_options]` sections of a file (`fix_duplicate_sections`);
* `process-workflow-template.py` — strips conditional marker blocks from a
  workflow template (`process_template`).

TOML documents are modelled as insertion-ordered association lists with
`String` keys, mirroring Python dicts as produced by `tomli`.  Raw file text
is modelled as `List Char`.  All definitions are executable.
-/

/-- A TOML value as produced by the `tomli` parser: strings, integers,
booleans, arrays and tables.  Tables keep insertion order, like Python
dicts.  Floats and dates are not needed by any claim and are omitted. -/
inductive TomlVal where
  | str : String → TomlVal
  | num : Int → TomlVal
  | boolean : Bool → TomlVal
  | arr : List TomlVal → TomlVal
  | table : List (String × TomlVal) → TomlVal

/-- Python dict lookup, `d.get(k)` (and `k in d` via `Option.isSome`). -/
def dlookup {κ α : Type} [DecidableEq κ] (k : κ) : List (κ × α) → Option α
  | [] => none
  | (k2, v) :: rest => if k2 = k then some v else dlookup k rest

/-- Python dict assignment `d[k] = v`: replace the binding in place when the
key is present, otherwise append it at the end (insertion order). -/
def dset {κ α : Type} [DecidableEq κ] : List (κ × α) → κ → α → List (κ × α)
  | [], k, v => [(k, v)]
  | (k2, v2) :: rest, k, v =>
    if k2 = k then (k, v) :: rest else (k2, v2) :: dset rest k v

mutual
/-- `_merge_dict_recursive` of `merge-pyproject-toml.py` (lines 28-43):
iterate over the template dict; keys missing from the merged dict are
appended, keys present with dict values on both sides are merged
recursively, all other existing keys keep the existing value. -/
def mergeDictRecursive : List (String × TomlVal) → List (String × TomlVal) →
    List (String × TomlVal)
  | merged, [] => merged
  | merged, (k, v) :: rest => mergeDictRecursive (mergeEntry merged k v) rest
termination_by _ t => sizeOf t
decreasing_by
  all_goals simp_wf
  all_goals omega

/-- One iteration of the `_merge_dict_recursive` loop for a single template
key/value pair: add when missing, recurse when both sides are dicts,
otherwise keep the existing value. -/
def mergeEntry (merged : List (String × TomlVal)) (k : String) :
    TomlVal → List (String × TomlVal)
  | TomlVal.table vt =>
    match dlookup k merged with
    | some (TomlVal.table mt) =>
      dset merged k (TomlVal.table (mergeDictRecursive mt vt))
    | some _ => merged
    | none => merged ++ [(k, TomlVal.table vt)]
  | v =>
    match dlookup k merged with
    | some _ => merged
    | none => merged ++ [(k, v)]
termination_by v => sizeOf v
decreasing_by
  all_goals simp_wf
end

/-- Access a nested value of a TOML tree by a key path. -/
def getPath : TomlVal → List String → Option TomlVal
  | v, [] => some v
  | TomlVal.table t, k :: rest =>
    match dlookup k t with
    | some v => getPath v rest
    | none => none
  | _, _ :: _ => none

/-- Whether a TOML value is a table (a Python dict). -/
def TomlVal.isTable : TomlVal → Bool
  | TomlVal.table _ => true
  | _ => false

/-- `b` keeps every non-table value reachable in `a` at the same key path. -/
def Preserves (a b : List (String × TomlVal)) : Prop :=
  ∀ path v, getPath (TomlVal.table a) path = some v → v.isTable = false →
    getPath (TomlVal.table b) path = some v

/-- The whitespace characters of Python's `str.split()` / `str.strip()`. -/
def pyIsSpace (c : Char) : Bool :=
  c = ' ' || c = '\t' || c = '\n' || c = '\r' || c = '\x0b' || c = '\x0c'

/-- Helper for `pySplit`: the accumulator holds the current word reversed. -/
def pySplitChars : List Char → List Char → List String
  | [], cur => if cur.isEmpty then [] else [String.mk cur.reverse]
  | c :: rest, cur =>
    if pyIsSpace c then
      if cur.isEmpty then pySplitChars rest []
      else String.mk cur.reverse :: pySplitChars rest []
    else pySplitChars rest (c :: cur)

/-- Python's `s.split()`: split on runs of whitespace, dropping empties. -/
def pySplit (s : String) : List String := pySplitChars s.data []

/-- Python's `' '.join(args)`. -/
def joinSpace (args : List String) : String := String.intercalate " " args

/-- Python's `s.strip()` on raw characters. -/
def pyStripChars (l : List Char) : List Char :=
  ((l.dropWhile pyIsSpace).reverse.dropWhile pyIsSpace).reverse

/-- Python's `s.strip()`. -/
def pyStrip (s : String) : String := String.mk (pyStripChars s.data)

/-- Python's `s.startswith(p)`, character by character. -/
def pyStartsWith (s p : String) : Bool := p.data.isPrefixOf s.data

/-- First-occurrence de-duplication, Python's `list(dict.fromkeys(l))` and
the `seen` set loop of `_merge_pytest_selectively` (lines 123-128). -/
def dedupFirstAux {α : Type} [DecidableEq α] : List α → List α → List α
  | _, [] => []
  | seen, a :: rest =>
    if a ∈ seen then dedupFirstAux seen rest
    else a :: dedupFirstAux (a :: seen) rest

/-- First-occurrence de-duplication of a list. -/
def dedupFirst {α : Type} [DecidableEq α] (l : List α) : List α :=
  dedupFirstAux [] l

/-- The string content of a TOML value.  The source only joins lists of
strings; a non-string element raises a TypeError there, so such values are
outside the modelled domain (theorems assume string lists). -/
def asStr : TomlVal → String
  | TomlVal.str s => s
  | _ => ""

/-- Truthiness of a TOML value as a Python object (`if existing_addopts:`). -/
def tomlTruthy : TomlVal → Bool
  | TomlVal.str s => !s.isEmpty
  | TomlVal.num n => n != 0
  | TomlVal.boolean b => b
  | TomlVal.arr l => !l.isEmpty
  | TomlVal.table t => !t.isEmpty

/-- `addopts` normalisation of `merge-pyproject-toml.py` (lines 54-59 and
114-117): a string is `split()`, a list is joined with spaces and re-split. -/
def tomlArgs : TomlVal → List String
  | TomlVal.str s => pySplit s
  | TomlVal.arr l => pySplit (joinSpace (l.map asStr))
  | _ => []

/-- `_extract_coverage_settings` (lines 46-76): partition the argument list
into coverage arguments and other arguments.  A token starting with `--cov`
is a coverage argument; the bare token `--cov` additionally grabs the next
token when that one does not start with `-`.  (The source's extra
`--cov-` branch is subsumed by the `--cov` prefix test.) -/
def extractCov : List String → List String × List String
  | [] => ([], [])
  | [a] => if pyStartsWith a "--cov" then ([a], []) else ([], [a])
  | a :: b :: rest =>
    if pyStartsWith a "--cov" then
      if a = "--cov" && !(pyStartsWith b "-") then
        let p := extractCov rest
        (a :: b :: p.1, p.2)
      else
        let p := extractCov (b :: rest)
        (a :: p.1, p.2)
    else
      let p := extractCov (b :: rest)
      (p.1, a :: p.2)

/-- Marker strings of a TOML `markers` value.  Python iterates the value:
a list yields its elements, a string yields its one-character substrings.
Other values raise a TypeError in the source and are outside the modelled
domain. -/
def markerStrings : TomlVal → List String
  | TomlVal.arr l => l.map asStr
  | TomlVal.str s => s.data.map (fun c => String.mk [c])
  | _ => []

/-- The characters before the first colon (the whole input when there is no
colon), `s.split(':')[0]` on raw characters. -/
def beforeColon : List Char → List Char
  | [] => []
  | c :: rest => if c = ':' then [] else c :: beforeColon rest

/-- `marker.split(':')[0].strip()` — the name part of a marker string. -/
def markerName (m : String) : String :=
  String.mk (pyStripChars (beforeColon m.data))

/-- The marker loop of `_merge_pytest_selectively` (lines 143-155): walk a
marker list keeping entries whose name is unseen, threading the name set and
the accumulator. -/
def addMarkersAux : List String → List String → List String →
    List String × List String
  | names, acc, [] => (names, acc)
  | names, acc, m :: rest =>
    if markerName m ∈ names then addMarkersAux names acc rest
    else addMarkersAux (markerName m :: names) (acc ++ [m]) rest

/-- The merged marker list: template markers first, then existing markers
with unseen names (lines 139-155 of `merge-pyproject-toml.py`). -/
def mergeMarkers (tm em : List String) : List String :=
  let p := addMarkersAux [] [] tm
  (addMarkersAux p.1 p.2 em).2

/-- Spec-side helper: de-duplicate a marker list by marker name, keeping the
first entry of each name, starting from a given set of already-used names. -/
def dedupByNameAux : List String → List String → List String
  | _, [] => []
  | seen, m :: rest =>
    if markerName m ∈ seen then dedupByNameAux seen rest
    else m :: dedupByNameAux (markerName m :: seen) rest

/-- Spec-side helper: de-duplicate a marker list by marker name. -/
def dedupByName (l : List String) : List String := dedupByNameAux [] l

/-- The marker union exactly as the specification words it (§4.3): the union
by marker name of the template markers, followed by those existing markers
whose names are not already present, template entries winning on name
collision and duplicate-named existing entries dropped. -/
def markersSpec (tm em : List String) : List String :=
  dedupByName tm ++
    dedupByName
      (em.filter (fun m => !((tm.map markerName).contains (markerName m))))

/-- `d.get(k, {})` followed by dict use.  A present non-table value raises a
TypeError in the source and is outside the modelled domain. -/
def getTableD : Option TomlVal → List (String × TomlVal)
  | some (TomlVal.table t) => t
  | _ => []

/-- The project-structure keys preserved from the existing document
(line 99 of `merge-pyproject-toml.py`). -/
def projectKeys : List String :=
  ["testpaths", "python_files", "python_classes", "python_functions"]

/-- Lines 99-103: take the key from the existing ini section when present,
else from the template, else leave the merged section unchanged. -/
def setFromEither (ei ti : List (String × TomlVal))
    (m : List (String × TomlVal)) (k : String) : List (String × TomlVal) :=
  match dlookup k ei with
  | some v => dset m k v
  | none =>
    match dlookup k ti with
    | some v => dset m k v
    | none => m

/-- The `addopts` merge of `_merge_pytest_selectively` (lines 105-133):
if the existing `addopts` is truthy, combine the template's split tokens with
the coverage tokens extracted from the existing value, de-duplicate keeping
first occurrences, join with spaces; otherwise take the template value. -/
def addAddopts (ei ti m : List (String × TomlVal)) : List (String × TomlVal) :=
  let ta := (dlookup "addopts" ti).getD (TomlVal.str "")
  let ea := (dlookup "addopts" ei).getD (TomlVal.arr [])
  if tomlTruthy ea then
    dset m "addopts"
      (TomlVal.str (joinSpace (dedupFirst (tomlArgs ta ++ (extractCov (tomlArgs ea)).1))))
  else dset m "addopts" ta

/-- The `markers` merge of `_merge_pytest_selectively` (lines 135-158):
set the merged marker list when it is non-empty. -/
def addMarkersIni (ei ti m : List (String × TomlVal)) :
    List (String × TomlVal) :=
  let em := markerStrings ((dlookup "markers" ei).getD (TomlVal.arr []))
  let tm := markerStrings ((dlookup "markers" ti).getD (TomlVal.arr []))
  let mm := mergeMarkers tm em
  if mm.isEmpty then m else dset m "markers" (TomlVal.arr (mm.map TomlVal.str))

/-- Lines 160-168: copy keys of `src` that the merged section does not have
yet, in order. -/
def copyMissing : List (String × TomlVal) → List (String × TomlVal) →
    List (String × TomlVal)
  | m, [] => m
  | m, kv :: rest =>
    if (dlookup kv.1 m).isSome then copyMissing m rest
    else copyMissing (m ++ [kv]) rest

/-- The body of `_merge_pytest_selectively` building `merged_ini`
(lines 92-168): `minversion` from the template, the project-structure keys,
the `addopts` merge, the `markers` merge, then the remaining existing keys
followed by the remaining template keys. -/
def buildMergedIni (ei ti : List (String × TomlVal)) :
    List (String × TomlVal) :=
  let m0 : List (String × TomlVal) :=
    match dlookup "minversion" ti with
    | some v => [("minversion", v)]
    | none => []
  let m1 := projectKeys.foldl (setFromEither ei ti) m0
  let m2 := addAddopts ei ti m1
  let m3 := addMarkersIni ei ti m2
  copyMissing (copyMissing m3 ei) ti

/-- `_merge_pytest_selectively` (lines 79-170): when neither side has an
`ini_options` key the template pytest table is returned unchanged; otherwise
the result is a table whose only key is `ini_options`. -/
def mergePytestSelectively (ep tp : List (String × TomlVal)) :
    List (String × TomlVal) :=
  if (dlookup "ini_options" ep).isNone && (dlookup "ini_options" tp).isNone
  then tp
  else
    [("ini_options", TomlVal.table
      (buildMergedIni (getTableD (dlookup "ini_options" ep))
        (getTableD (dlookup "ini_options" tp))))]

/-- The allow-list of line 268 of `merge-pyproject-toml.py`. -/
def toolsToOverwrite : List String :=
  ["black", "isort", "mypy", "coverage", "flake8", "ruff"]

/-- One iteration of the overwrite-mode tool loop (lines 272-286): `pytest`
(the only member of `tools_to_merge_selectively`) goes through the selective
merge; a tool whose name starts with an allow-listed name is replaced by the
template value; a tool not yet present is added; otherwise the existing
value stays. -/
def overwriteToolStep (m : List (String × TomlVal)) (kv : String × TomlVal) :
    List (String × TomlVal) :=
  if kv.1 = "pytest" then
    dset m "pytest" (TomlVal.table
      (mergePytestSelectively (getTableD (dlookup "pytest" m))
        (getTableD (some kv.2))))
  else if toolsToOverwrite.any (fun t => pyStartsWith kv.1 t) then
    dset m kv.1 kv.2
  else if (dlookup kv.1 m).isNone then m ++ [kv]
  else m

/-- The overwrite-mode tool merge: fold the template tools over the existing
tool table (lines 263-286). -/
def overwriteMergeTools : List (String × TomlVal) → List (String × TomlVal) →
    List (String × TomlVal)
  | m, [] => m
  | m, kv :: rest => overwriteMergeTools (overwriteToolStep m kv) rest

/-- The final loop of `merge_pyproject_toml` (lines 307-310): copy the
remaining top-level keys of the existing document, except `tool`. -/
def copyOtherTopLevel : List (String × TomlVal) → List (String × TomlVal) →
    List (String × TomlVal)
  | m, [] => m
  | m, kv :: rest =>
    if (kv.1 != "tool") && (dlookup kv.1 m).isNone then
      copyOtherTopLevel (m ++ [kv]) rest
    else copyOtherTopLevel m rest

/-- `merge_pyproject_toml` (lines 252-310) on parsed documents:
`build-system` and `project` are copied from the existing document, the tool
table is merged according to the mode (the additive loop of lines 287-305 is
exactly `mergeDictRecursive` applied at tool level), and the remaining
top-level keys of the existing document are copied through.  A non-table
`tool` value raises in the source (iteration / membership on a non-dict) and
is outside the modelled domain. -/
def mergePyprojectToml (existing template : List (String × TomlVal))
    (overwriteTools : Bool) : List (String × TomlVal) :=
  let m0 : List (String × TomlVal) :=
    match dlookup "build-system" existing with
    | some v => [("build-system", v)]
    | none => []
  let m1 := m0 ++
    (match dlookup "project" existing with
     | some v => [("project", v)]
     | none => [])
  let et := getTableD (dlookup "tool" existing)
  let tt := getTableD (dlookup "tool" template)
  let toolTable :=
    if overwriteTools then overwriteMergeTools et tt
    else mergeDictRecursive et tt
  copyOtherTopLevel (m1 ++ [("tool", TomlVal.table toolTable)]) existing

/-- The merge script run over an abstract filesystem mapping paths to
successfully parsed documents (`none` = the file does not exist).  Mirrors
lines 234-250 and `main` (lines 372-386): a missing template file makes
`open` raise, the exception is caught and the process exits non-zero, while
a missing existing file is tolerated — `existing_data` stays `{}` (lines
238-239 and 243-246 guard every access with `Path(existing_path).exists()`).
Parse errors are a separate concern and are not modelled: the filesystem
yields already-parsed documents. -/
def mergeScriptRun (fs : String → Option (List (String × TomlVal)))
    (existingPath templatePath : String) (overwriteTools : Bool) :
    Option (List (String × TomlVal)) :=
  match fs templatePath with
  | none => none
  | some template =>
    some (mergePyprojectToml ((fs existingPath).getD []) template overwriteTools)

/-- Exit status of the merge script: 1 when the run raised, else 0. -/
def mergeScriptExitCode (fs : String → Option (List (String × TomlVal)))
    (existingPath templatePath : String) (overwriteTools : Bool) : Nat :=
  match mergeScriptRun fs existingPath templatePath overwriteTools with
  | none => 1
  | some _ => 0

/-- Exit status of `fix-duplicate-toml-sections.py` `main` (lines 106-109)
with respect to a missing input file: the path is checked with
`Path(file_path).exists()` and the process exits 1 when absent. -/
def fixScriptExitCode {α : Type} (fs : String → Option α) (path : String) :
    Nat :=
  match fs path with
  | none => 1
  | some _ => 0

/-- Exit status of `process-workflow-template.py` `main` (lines 96-98) with
respect to a missing input template: checked with `input_file.exists()`,
exit 1 when absent. -/
def processScriptExitCode {α : Type} (fs : String → Option α) (path : String) :
    Nat :=
  match fs path with
  | none => 1
  | some _ => 0

/-- A token of the workflow template text.  `lit` is marker-free text;
`openTok n` renders as the open marker of name `n` followed by its newline,
`closeTok n` as the close marker of name `n` followed by its newline (the
processing regexes consume an optional newline right after each marker, so a
marker standing on its own line is removed together with that newline). -/
inductive Seg where
  | lit : String → Seg
  | openTok : String → Seg
  | closeTok : String → Seg
deriving DecidableEq

/-- Keeping a block (lines 76-81 of `process-workflow-template.py`): the
open and close markers of the name are deleted, everything else stays. -/
def stripMarkers (n : String) (segs : List Seg) : List Seg :=
  segs.filter (fun s => (s != Seg.openTok n) && (s != Seg.closeTok n))

/-- Removing blocks (lines 83-84): a left-to-right scan; an open marker of
the name starts a candidate block (`some buf` buffers its content), the
first close marker of the name ends it and the whole span is dropped; an
open marker never followed by a close marker matches nothing and is kept
verbatim together with the buffered content. -/
def removeBlocksAux (n : String) : List Seg → Option (List Seg) → List Seg
  | [], none => []
  | [], some buf => Seg.openTok n :: buf.reverse
  | s :: rest, none =>
    if s = Seg.openTok n then removeBlocksAux n rest (some [])
    else s :: removeBlocksAux n rest none
  | s :: rest, some buf =>
    if s = Seg.closeTok n then removeBlocksAux n rest none
    else removeBlocksAux n rest (some (s :: buf))

/-- Remove every matched block of the given marker name. -/
def removeBlocks (n : String) (segs : List Seg) : List Seg :=
  removeBlocksAux n segs none

/-- The configuration record built by `read_quality_config`. -/
structure QualityConfig where
  current_phase : Int
  has_frontend : Bool
  has_backend : Bool

/-- Frontend/backend conditional handling (lines 42-60): keep the block
contents when the flag is true, remove the blocks when false. -/
def boolGate (has : Bool) (n : String) (segs : List Seg) : List Seg :=
  if has then stripMarkers n segs else removeBlocks n segs

/-- `phases_to_keep` (lines 63-71). -/
def phasesToKeep (p : Int) : List String :=
  if p = 0 then ["PHASE_0"]
  else if p = 1 then ["PHASE_1", "PHASE_1_OR_HIGHER"]
  else if p = 2 then ["PHASE_2", "PHASE_1_OR_HIGHER", "PHASE_2_OR_HIGHER"]
  else if p ≥ 3 then ["PHASE_3", "PHASE_1_OR_HIGHER", "PHASE_2_OR_HIGHER"]
  else []

/-- `all_phases` (line 74). -/
def allPhases : List String :=
  ["PHASE_0", "PHASE_1", "PHASE_2", "PHASE_3",
   "PHASE_1_OR_HIGHER", "PHASE_2_OR_HIGHER"]

/-- `process_template` (lines 35-86): the frontend gate, the backend gate,
then per phase name in `all_phases` order either marker stripping (kept
phases) or block removal (all other phases). -/
def processTemplate (cfg : QualityConfig) (segs : List Seg) : List Seg :=
  let s1 := boolGate cfg.has_frontend "HAS_FRONTEND" segs
  let s2 := boolGate cfg.has_backend "HAS_BACKEND" s1
  allPhases.foldl
    (fun s p =>
      if (phasesToKeep cfg.current_phase).contains p then stripMarkers p s
      else removeBlocks p s) s2

/-- A well-formed template item: marker-free text, or a properly matched,
non-nested conditional block with marker-free interior. -/
inductive TItem where
  | plain : String → TItem
  | block : String → String → TItem
deriving DecidableEq

/-- Tokens of one template item. -/
def itemSegs : TItem → List Seg
  | TItem.plain s => [Seg.lit s]
  | TItem.block n s => [Seg.openTok n, Seg.lit s, Seg.closeTok n]

/-- Tokens of a template made of well-formed items. -/
def itemsToSegs (items : List TItem) : List Seg :=
  (items.map itemSegs).flatten

/-- Unwrap blocks of one marker name into their interior text. -/
def unwrapIf (n : String) : TItem → TItem
  | TItem.block m s => if m = n then TItem.plain s else TItem.block m s
  | i => i

/-- Whether an item is a block of the given marker name. -/
def isBlockOf (n : String) : TItem → Bool
  | TItem.block m _ => m = n
  | _ => false

/-- The literal `[tool.pytest.ini_options]` header looked for by
`fix-duplicate-toml-sections.py` (line 27). -/
def headerChars : List Char := "[tool.pytest.ini_options]".data

/-- First occurrence of the section header: `some (before, after)` splits
the input as `before ++ headerChars ++ after` at the leftmost occurrence;
`none` when the header does not occur. -/
def findHeader : List Char → Option (List Char × List Char)
  | [] => none
  | c :: rest =>
    if headerChars.isPrefixOf (c :: rest) then
      some ([], (c :: rest).drop headerChars.length)
    else
      match findHeader rest with
      | some (a, b) => some (c :: a, b)
      | none => none

/-- Split at the first `[`: the regex group `(.*?)(?=\[|\Z)` is lazy with a
lookahead for `[` or end of input, so a section body extends exactly up to
(and excluding) the first following `[` character. -/
def splitAtLBrack : List Char → List Char × List Char
  | [] => ([], [])
  | c :: rest =>
    if c = '[' then ([], c :: rest)
    else
      let p := splitAtLBrack rest
      (c :: p.1, p.2)

/-- Result of scanning a file for `[tool.pytest.ini_options]` sections:
the text before the first header, the matched section bodies, and the
unmatched gap texts (one after each matched span; the last one is the tail
of the file). -/
structure ScanOut where
  pre : List Char
  bodies : List (List Char)
  gaps : List (List Char)
deriving DecidableEq

/-- Fuel-driven scan mirroring `re.finditer` of the section pattern
(line 27-29): find the next header, cut the body at the first following
`[`, resume scanning there.  The fuel only bounds the recursion; any fuel
larger than the input length is enough. -/
def scanSectionsFuel : Nat → List Char → ScanOut
  | 0, l => ⟨l, [], []⟩
  | fuel + 1, l =>
    match findHeader l with
    | none => ⟨l, [], []⟩
    | some (a, b) =>
      let p := splitAtLBrack b
      let r := scanSectionsFuel fuel p.2
      ⟨a, p.1 :: r.bodies, r.pre :: r.gaps⟩

/-- Scan a whole file for section matches. -/
def scanSections (l : List Char) : ScanOut := scanSectionsFuel (l.length + 1) l

/-- Split raw text on newline characters, Python's `s.split('\n')`. -/
def splitLinesNL : List Char → List (List Char)
  | [] => [[]]
  | c :: rest =>
    if c = '\n' then [] :: splitLinesNL rest
    else
      match splitLinesNL rest with
      | l :: ls => (c :: l) :: ls
      | [] => [[c]]

/-- Split a line at the first `=`, Python's `line.split('=', 1)`;
`none` when the line has no `=`. -/
def splitFirstEq : List Char → Option (List Char × List Char)
  | [] => none
  | c :: rest =>
    if c = '=' then some ([], rest)
    else
      match splitFirstEq rest with
      | some (a, b) => some (c :: a, b)
      | none => none

/-- Parse one line of a section body (lines 46-53 of
`fix-duplicate-toml-sections.py`): strip it, skip empty and comment lines,
split at the first `=` and strip key and value. -/
def parseLine (line : List Char) : Option (List Char × List Char) :=
  let l := pyStripChars line
  if l.isEmpty then none
  else if l.head? = some '#' then none
  else
    match splitFirstEq l with
    | none => none
    | some (k, v) => some (pyStripChars k, pyStripChars v)

/-- Key/value pairs of one section body, in order (`section_content =
match.group(1).strip()` then a line loop). -/
def bodyPairs (body : List Char) : List (List Char × List Char) :=
  (splitLinesNL (pyStripChars body)).filterMap parseLine

/-- `re.findall(r'"([^"]*)"', s)`: the texts of successive double-quoted
spans; a trailing unpaired quote matches nothing.  `some acc` is the state
inside a quoted span (content reversed). -/
def extractQuotedAux : List Char → Option (List Char) → List (List Char)
  | [], _ => []
  | c :: rest, none =>
    if c = '"' then extractQuotedAux rest (some [])
    else extractQuotedAux rest none
  | c :: rest, some acc =>
    if c = '"' then acc.reverse :: extractQuotedAux rest none
    else extractQuotedAux rest (some (c :: acc))

/-- All double-quoted span contents of a raw string. -/
def extractQuoted (l : List Char) : List (List Char) := extractQuotedAux l none

/-- Whether a raw value starts with `[` (`value.startswith('[')`). -/
def startsLBrack (v : List Char) : Bool := v.head? = some '['

/-- Quote one array item, `f'"{item}"'`. -/
def quoteItem (i : List Char) : List Char := '"' :: (i ++ ['"'])

/-- Join raw strings with a separator, Python's `sep.join(parts)`. -/
def joinSep : List Char → List (List Char) → List Char
  | _, [] => []
  | _, [x] => x
  | sep, x :: y :: rest => x ++ sep ++ joinSep sep (y :: rest)

/-- Re-serialisation of a merged array (line 64):
`'[\n    ' + ',\n    '.join(f'"{item}"' for item in combined) + ',\n]'`. -/
def renderArr (items : List (List Char)) : List Char :=
  ('[' :: '\n' :: [' ', ' ', ' ', ' ']) ++
    joinSep (',' :: '\n' :: [' ', ' ', ' ', ' ']) (items.map quoteItem) ++
    (',' :: '\n' :: [']'])

/-- One step of the `all_settings` accumulation (lines 56-69): a new key is
appended; a repeated key whose old and new values both start with `[` gets
the re-serialised de-duplicated union of their quoted items; any other
repeated key keeps the first value. -/
def settingsStep (settings : List (List Char × List Char))
    (kv : List Char × List Char) : List (List Char × List Char) :=
  match dlookup kv.1 settings with
  | none => settings ++ [kv]
  | some old =>
    if startsLBrack kv.2 && startsLBrack old then
      dset settings kv.1
        (renderArr (dedupFirst (extractQuoted old ++ extractQuoted kv.2)))
    else settings

/-- The `all_settings` dict after processing every section body in order. -/
def mergeAllSettings (bodies : List (List Char)) :
    List (List Char × List Char) :=
  ((bodies.map bodyPairs).flatten).foldl settingsStep []

/-- `merged_content` (lines 71-77): the header line followed by one
`key = value` line per setting, in insertion order. -/
def renderSettings : List (List Char × List Char) → List Char
  | [] => []
  | (k, v) :: rest => k ++ ' ' :: '=' :: ' ' :: (v ++ '\n' :: renderSettings rest)

/-- The merged replacement section for the matched bodies. -/
def mergedSectionFor (bodies : List (List Char)) : List Char :=
  headerChars ++ '\n' :: renderSettings (mergeAllSettings bodies)

/-- `fix_duplicate_sections` (lines 26-98) on the file content: with at most
one match the content is untouched and `False` is returned; otherwise all
matched spans are removed, the merged section plus one newline is inserted
at the position of the first match, and `True` is returned.  (The
`.backup` side file of lines 16-20 is not part of the primary content.) -/
def fixDup (content : List Char) : Bool × List Char :=
  let s := scanSections content
  if s.bodies.length ≤ 1 then (false, content)
  else (true, s.pre ++ mergedSectionFor s.bodies ++ '\n' :: s.gaps.flatten)

/-- A raw text that is empty or starts with `[` (every unmatched gap starts
at the `[` that terminated the previous section body). -/
def HeadOk (l : List Char) : Prop := l = [] ∨ ∃ t, l = '[' :: t

/-- Well-typedness of a `markers` value: absent or a list of strings
(anything else raises a TypeError in the source). -/
def markersOk (ini : List (String × TomlVal)) : Prop :=
  ∀ v, dlookup "markers" ini = some v →
    ∃ l : List String, v = TomlVal.arr (l.map TomlVal.str)

/-- Well-typedness of an `addopts` value: absent, a string, or a list of
strings (anything else raises a TypeError in the source). -/
def addoptsOk (ini : List (String × TomlVal)) : Prop :=
  ∀ v, dlookup "addopts" ini = some v →
    (∃ s, v = TomlVal.str s) ∨
      ∃ l : List String, v = TomlVal.arr (l.map TomlVal.str)

/-- Well-typedness of a pytest tool table for the selective merge: an
`ini_options` value, when present, is a table with well-typed `markers`
and `addopts`. -/
def pytestWF (p : List (String × TomlVal)) : Prop :=
  ∀ v, dlookup "ini_options" p = some v →
    ∃ ini, v = TomlVal.table ini ∧ markersOk ini ∧ addoptsOk ini

/-! ### Association-list lemmas -/

theorem dlookup_append_left {κ α : Type} [DecidableEq κ] {k : κ} {v : α}
    {l1 l2 : List (κ × α)} (h : dlookup k l1 = some v) :
    dlookup k (l1 ++ l2) = some v := by
  induction l1 with
  | nil => simp [dlookup] at h
  | cons p rest ih =>
    obtain ⟨k2, v2⟩ := p
    by_cases hk : k2 = k
    · simp [dlookup, hk] at h ⊢; exact h
    · simp [dlookup, hk] at h ⊢; exact ih h

theorem dlookup_append_none {κ α : Type} [DecidableEq κ] {k : κ}
    {l1 l2 : List (κ × α)} (h : dlookup k l1 = none) :
    dlookup k (l1 ++ l2) = dlookup k l2 := by
  induction l1 with
  | nil => simp
  | cons p rest ih =>
    obtain ⟨k2, v2⟩ := p
    by_cases hk : k2 = k
    · simp [dlookup, hk] at h
    · simp [dlookup, hk] at h ⊢; exact ih h

theorem dlookup_dset_self {κ α : Type} [DecidableEq κ] (l : List (κ × α))
    (k : κ) (v : α) : dlookup k (dset l k v) = some v := by
  induction l with
  | nil => simp [dset, dlookup]
  | cons p rest ih =>
    obtain ⟨k2, v2⟩ := p
    by_cases hk : k2 = k
    · simp [dset, hk, dlookup]
    · simp [dset, hk, dlookup, ih]

theorem dlookup_dset_ne {κ α : Type} [DecidableEq κ] (l : List (κ × α))
    {k2 k : κ} (v : α) (h : k2 ≠ k) :
    dlookup k2 (dset l k v) = dlookup k2 l := by
  induction l with
  | nil => simp [dset, dlookup]; intro hh; exact absurd hh.symm h
  | cons p rest ih =>
    obtain ⟨ka, va⟩ := p
    by_cases hk : ka = k
    · subst hk
      have hne : ¬ (ka = k2) := fun hh => h (hh.symm)
      simp [dset, dlookup, hne]
    · simp [dset, hk, dlookup, ih]

theorem dlookup_append_single_ne {κ α : Type} [DecidableEq κ]
    {k k2 : κ} (v : α) (m : List (κ × α)) (h : k2 ≠ k) :
    dlookup k2 (m ++ [(k, v)]) = dlookup k2 m := by
  rcases hm : dlookup k2 m with _ | w
  · rw [dlookup_append_none hm]
    simp [dlookup]
    intro hh; exact absurd hh.symm h
  · exact dlookup_append_left hm

/-! ### Preservation lemmas for the additive merge (C5) -/

theorem preserves_refl (a : List (String × TomlVal)) : Preserves a a :=
  fun _ _ h _ => h

theorem preserves_trans {a b c : List (String × TomlVal)}
    (h1 : Preserves a b) (h2 : Preserves b c) : Preserves a c :=
  fun path v hg hnt => h2 path v (h1 path v hg hnt) hnt

theorem getPath_table_cons (t : List (String × TomlVal)) (k : String)
    (rest : List String) :
    getPath (TomlVal.table t) (k :: rest) =
      match dlookup k t with
      | some v => getPath v rest
      | none => none := rfl

theorem preserves_append (a l : List (String × TomlVal)) :
    Preserves a (a ++ l) := by
  intro path v hg hnt
  cases path with
  | nil =>
    simp [getPath] at hg
    rw [← hg] at hnt
    simp [TomlVal.isTable] at hnt
  | cons k rest =>
    rw [getPath_table_cons] at hg ⊢
    rcases hk : dlookup k a with _ | w
    · rw [hk] at hg; simp at hg
    · rw [hk] at hg
      rw [dlookup_append_left hk]
      exact hg

theorem preserves_dset_table {a mt mt2 : List (String × TomlVal)} {k : String}
    (h : dlookup k a = some (TomlVal.table mt)) (hp : Preserves mt mt2) :
    Preserves a (dset a k (TomlVal.table mt2)) := by
  intro path v hg hnt
  cases path with
  | nil =>
    simp [getPath] at hg
    rw [← hg] at hnt
    simp [TomlVal.isTable] at hnt
  | cons k0 rest =>
    rw [getPath_table_cons] at hg ⊢
    by_cases hk0 : k0 = k
    · subst hk0
      rw [h] at hg
      rw [dlookup_dset_self]
      exact hp rest v hg hnt
    · rw [dlookup_dset_ne a _ hk0]
      exact hg

theorem mergeEntry_none_append {merged : List (String × TomlVal)} {k : String}
    (v : TomlVal) (h : dlookup k merged = none) :
    mergeEntry merged k v = merged ++ [(k, v)] := by
  cases v <;> simp [mergeEntry, h]

theorem merge_preserves_main :
    ∀ n : Nat,
      (∀ (t merged : List (String × TomlVal)), sizeOf t ≤ n →
        Preserves merged (mergeDictRecursive merged t)) ∧
      (∀ (v : TomlVal) (merged : List (String × TomlVal)) (k : String),
        sizeOf v ≤ n → Preserves merged (mergeEntry merged k v)) := by
  intro n
  induction n using Nat.strong_induction_on with
  | _ n ih =>
    constructor
    · intro t merged hsize
      cases t with
      | nil => simp [mergeDictRecursive]; exact preserves_refl merged
      | cons p rest =>
        obtain ⟨k, v⟩ := p
        rw [mergeDictRecursive]
        have hv : sizeOf v < n := by
          have : sizeOf v < sizeOf ((k, v) :: rest) := by
            simp only [List.cons.sizeOf_spec, Prod.mk.sizeOf_spec]; omega
          omega
        have hr : sizeOf rest < n := by
          have : sizeOf rest < sizeOf ((k, v) :: rest) := by
            simp only [List.cons.sizeOf_spec]; omega
          omega
        exact preserves_trans
          ((ih (sizeOf v) hv).2 v merged k (le_refl _))
          ((ih (sizeOf rest) hr).1 rest (mergeEntry merged k v) (le_refl _))
    · intro v merged k hsize
      cases v with
      | table vt =>
        rcases hdl : dlookup k merged with _ | w
        · rw [mergeEntry_none_append _ hdl]
          exact preserves_append merged _
        · cases w with
          | table mt =>
            have hvt : sizeOf vt < n := by
              have : sizeOf vt < sizeOf (TomlVal.table vt) := by
                simp only [TomlVal.table.sizeOf_spec]; omega
              omega
            have hrec : Preserves mt (mergeDictRecursive mt vt) :=
              (ih (sizeOf vt) hvt).1 vt mt (le_refl _)
            have : mergeEntry merged k (TomlVal.table vt) =
                dset merged k (TomlVal.table (mergeDictRecursive mt vt)) := by
              simp [mergeEntry, hdl]
            rw [this]
            exact preserves_dset_table hdl hrec
          | str s => simp [mergeEntry, hdl]; exact preserves_refl merged
          | num i => simp [mergeEntry, hdl]; exact preserves_refl merged
          | boolean b => simp [mergeEntry, hdl]; exact preserves_refl merged
          | arr l => simp [mergeEntry, hdl]; exact preserves_refl merged
      | str s =>
        rcases hdl : dlookup k merged with _ | w
        · rw [mergeEntry_none_append _ hdl]; exact preserves_append merged _
        · simp [mergeEntry, hdl]; exact preserves_refl merged
      | num i =>
        rcases hdl : dlookup k merged with _ | w
        · rw [mergeEntry_none_append _ hdl]; exact preserves_append merged _
        · simp [mergeEntry, hdl]; exact preserves_refl merged
      | boolean b =>
        rcases hdl : dlookup k merged with _ | w
        · rw [mergeEntry_none_append _ hdl]; exact preserves_append merged _
        · simp [mergeEntry, hdl]; exact preserves_refl merged
      | arr l =>
        rcases hdl : dlookup k merged with _ | w
        · rw [mergeEntry_none_append _ hdl]; exact preserves_append merged _
        · simp [mergeEntry, hdl]; exact preserves_refl merged

theorem mergeDict_preserves (merged t : List (String × TomlVal)) :
    Preserves merged (mergeDictRecursive merged t) :=
  (merge_preserves_main (sizeOf t)).1 t merged (le_refl _)

/-! ### Lookup lemmas for the additive merge -/

theorem dlookup_mergeEntry_ne {merged : List (String × TomlVal)}
    {k k2 : String} (v : TomlVal) (h : k2 ≠ k) :
    dlookup k2 (mergeEntry merged k v) = dlookup k2 merged := by
  cases v with
  | table vt =>
    rcases hdl : dlookup k merged with _ | w
    · rw [mergeEntry_none_append _ hdl]
      exact dlookup_append_single_ne _ merged h
    · cases w <;> simp [mergeEntry, hdl] <;>
        exact dlookup_dset_ne merged _ h
  | str s =>
    rcases hdl : dlookup k merged with _ | w
    · rw [mergeEntry_none_append _ hdl]
      exact dlookup_append_single_ne _ merged h
    · simp [mergeEntry, hdl]
  | num i =>
    rcases hdl : dlookup k merged with _ | w
    · rw [mergeEntry_none_append _ hdl]
      exact dlookup_append_single_ne _ merged h
    · simp [mergeEntry, hdl]
  | boolean b =>
    rcases hdl : dlookup k merged with _ | w
    · rw [mergeEntry_none_append _ hdl]
      exact dlookup_append_single_ne _ merged h
    · simp [mergeEntry, hdl]
  | arr l =>
    rcases hdl : dlookup k merged with _ | w
    · rw [mergeEntry_none_append _ hdl]
      exact dlookup_append_single_ne _ merged h
    · simp [mergeEntry, hdl]

theorem dlookup_mergeDict_not_mem {k : String}
    {t : List (String × TomlVal)} (m : List (String × TomlVal))
    (h : k ∉ t.map Prod.fst) :
    dlookup k (mergeDictRecursive m t) = dlookup k m := by
  induction t generalizing m with
  | nil => simp [mergeDictRecursive]
  | cons p rest ih =>
    obtain ⟨k2, v⟩ := p
    simp only [List.map_cons, List.mem_cons] at h
    push_neg at h
    rw [mergeDictRecursive, ih _ h.2, dlookup_mergeEntry_ne v (h.1)]

theorem dlookup_mergeDict_added {k : String} {c : TomlVal}
    {t : List (String × TomlVal)} (m : List (String × TomlVal))
    (hm : dlookup k m = none) (ht : dlookup k t = some c)
    (hnd : (t.map Prod.fst).Nodup) :
    dlookup k (mergeDictRecursive m t) = some c := by
  induction t generalizing m with
  | nil => simp [dlookup] at ht
  | cons p rest ih =>
    obtain ⟨k2, v⟩ := p
    simp only [List.map_cons, List.nodup_cons] at hnd
    by_cases hk : k2 = k
    · subst hk
      simp [dlookup] at ht
      subst ht
      rw [mergeDictRecursive]
      have hstep : mergeEntry m k2 v = m ++ [(k2, v)] :=
        mergeEntry_none_append v hm
      rw [hstep]
      rw [dlookup_mergeDict_not_mem _ hnd.1]
      rw [dlookup_append_none hm]
      simp [dlookup]
    · simp [dlookup, hk] at ht
      rw [mergeDictRecursive]
      exact ih (mergeEntry m k2 v)
        (by rw [dlookup_mergeEntry_ne v (fun hh => hk hh.symm)]; exact hm)
        ht hnd.2

theorem dlookup_mergeDict_both_tables {k : String}
    {a b : List (String × TomlVal)} {t : List (String × TomlVal)}
    (m : List (String × TomlVal))
    (hm : dlookup k m = some (TomlVal.table a))
    (ht : dlookup k t = some (TomlVal.table b))
    (hnd : (t.map Prod.fst).Nodup) :
    dlookup k (mergeDictRecursive m t) =
      some (TomlVal.table (mergeDictRecursive a b)) := by
  induction t generalizing m with
  | nil => simp [dlookup] at ht
  | cons p rest ih =>
    obtain ⟨k2, v⟩ := p
    simp only [List.map_cons, List.nodup_cons] at hnd
    by_cases hk : k2 = k
    · subst hk
      simp [dlookup] at ht
      subst ht
      rw [mergeDictRecursive]
      have hstep : mergeEntry m k2 (TomlVal.table b) =
          dset m k2 (TomlVal.table (mergeDictRecursive a b)) := by
        simp [mergeEntry, hm]
      rw [hstep]
      rw [dlookup_mergeDict_not_mem _ hnd.1]
      exact dlookup_dset_self m k2 _
    · simp [dlookup, hk] at ht
      rw [mergeDictRecursive]
      exact ih (mergeEntry m k2 v)
        (by rw [dlookup_mergeEntry_ne v (fun hh => hk hh.symm)]; exact hm)
        ht hnd.2

/-! ### Lookup lemmas for `mergePyprojectToml` -/

theorem dlookup_copyOtherTopLevel_some {k : String} {v : TomlVal}
    {src : List (String × TomlVal)} (m : List (String × TomlVal))
    (h : dlookup k m = some v) :
    dlookup k (copyOtherTopLevel m src) = some v := by
  induction src generalizing m with
  | nil => simpa [copyOtherTopLevel] using h
  | cons kv rest ih =>
    rw [copyOtherTopLevel]
    by_cases hc : ((kv.1 != "tool") && (dlookup kv.1 m).isNone) = true
    · rw [if_pos hc]
      exact ih _ (dlookup_append_left h)
    · rw [if_neg hc]
      exact ih _ h

/-- The first two entries of the merged document (`build-system`,
`project`), as built by lines 255-260. -/
theorem mergePyproject_head (existing template : List (String × TomlVal))
    (ow : Bool) :
    mergePyprojectToml existing template ow =
      copyOtherTopLevel
        (((match dlookup "build-system" existing with
           | some v => [("build-system", v)]
           | none => []) ++
          (match dlookup "project" existing with
           | some v => [("project", v)]
           | none => [])) ++
         [("tool", TomlVal.table
           (if ow then
             overwriteMergeTools (getTableD (dlookup "tool" existing))
               (getTableD (dlookup "tool" template))
            else
             mergeDictRecursive (getTableD (dlookup "tool" existing))
               (getTableD (dlookup "tool" template))))]) existing := rfl

/-- C1 helper: looking up `tool` in the merged document yields the merged
tool table. -/
theorem dlookup_tool_mergePyproject (existing template : List (String × TomlVal))
    (ow : Bool) :
    dlookup "tool" (mergePyprojectToml existing template ow) =
      some (TomlVal.table
        (if ow then
          overwriteMergeTools (getTableD (dlookup "tool" existing))
            (getTableD (dlookup "tool" template))
         else
          mergeDictRecursive (getTableD (dlookup "tool" existing))
            (getTableD (dlookup "tool" template)))) := by
  rw [mergePyproject_head]
  apply dlookup_copyOtherTopLevel_some
  have h1 : dlookup "tool"
      ((match dlookup "build-system" existing with
        | some v => [("build-system", v)]
        | none => []) ++
       (match dlookup "project" existing with
        | some v => [("project", v)]
        | none => [])) = none := by
    rcases dlookup "build-system" existing with _ | v <;>
      rcases dlookup "project" existing with _ | w <;> simp [dlookup]
  rw [dlookup_append_none h1]
  simp [dlookup]

theorem getPath_single (t : List (String × TomlVal)) (k : String) :
    getPath (TomlVal.table t) [k] = dlookup k t := by
  rw [getPath_table_cons]
  rcases dlookup k t with _ | v <;> simp [getPath]

theorem getPath_tool_additive (existing template : List (String × TomlVal))
    (path : List String) :
    getPath (TomlVal.table (mergePyprojectToml existing template false))
        ("tool" :: path) =
      getPath (TomlVal.table
        (mergeDictRecursive (getTableD (dlookup "tool" existing))
          (getTableD (dlookup "tool" template)))) path := by
  rw [getPath_table_cons, dlookup_tool_mergePyproject]
  simp

/-- C1: for every existing document and every template document, if the
existing document contains a `build-system` section (respectively a
`project` section), the merged output of `merge_pyproject_toml` contains
that section with exactly the existing document's value, in both additive
and overwrite mode. -/
theorem merge_preserves_critical_sections :
    ∀ (existing template : List (String × TomlVal)) (ow : Bool) (v : TomlVal),
      (dlookup "build-system" existing = some v →
        dlookup "build-system" (mergePyprojectToml existing template ow) =
          some v) ∧
      (dlookup "project" existing = some v →
        dlookup "project" (mergePyprojectToml existing template ow) =
          some v) := by
  intro existing template ow v
  constructor
  · intro h
    rw [mergePyproject_head, h]
    apply dlookup_copyOtherTopLevel_some
    apply dlookup_append_left
    apply dlookup_append_left
    simp [dlookup]
  · intro h
    rw [mergePyproject_head, h]
    apply dlookup_copyOtherTopLevel_some
    apply dlookup_append_left
    have h0 : dlookup "project"
        (match dlookup "build-system" existing with
         | some w => [("build-system", w)]
         | none => ([] : List (String × TomlVal))) = none := by
      rcases dlookup "build-system" existing with _ | w <;> simp [dlookup]
    rw [dlookup_append_none h0]
    simp [dlookup]

/-- Witness for C1 at a concrete document pair, in both modes. -/
theorem merge_preserves_critical_sections_witness :
    dlookup "build-system"
      (mergePyprojectToml
        [("build-system", TomlVal.str "bs"), ("project", TomlVal.str "pj")]
        [("tool", TomlVal.table [])] false) = some (TomlVal.str "bs") ∧
    dlookup "project"
      (mergePyprojectToml
        [("build-system", TomlVal.str "bs"), ("project", TomlVal.str "pj")]
        [("tool", TomlVal.table [])] true) = some (TomlVal.str "pj") :=
  ⟨(merge_preserves_critical_sections
      [("build-system", TomlVal.str "bs"), ("project", TomlVal.str "pj")]
      [("tool", TomlVal.table [])] false (TomlVal.str "bs")).1 rfl,
   (merge_preserves_critical_sections
      [("build-system", TomlVal.str "bs"), ("project", TomlVal.str "pj")]
      [("tool", TomlVal.table [])] true (TomlVal.str "pj")).2 rfl⟩

/-- C5: in additive mode no key of the existing tool sections (at any
nesting depth, with a non-mapping value) is removed or overwritten; tools
present only in the template are added wholesale; tools present in both
sides as tables are merged key-by-key recursively (existing values winning
on conflict by the first conjunct). -/
theorem additive_merge_preserves_existing :
    (∀ (existing template : List (String × TomlVal)) (path : List String)
        (v : TomlVal),
      getPath (TomlVal.table (getTableD (dlookup "tool" existing))) path =
        some v →
      v.isTable = false →
      getPath (TomlVal.table (mergePyprojectToml existing template false))
        ("tool" :: path) = some v) ∧
    (∀ (existing template : List (String × TomlVal)) (name : String)
        (c : TomlVal),
      dlookup name (getTableD (dlookup "tool" existing)) = none →
      dlookup name (getTableD (dlookup "tool" template)) = some c →
      ((getTableD (dlookup "tool" template)).map Prod.fst).Nodup →
      getPath (TomlVal.table (mergePyprojectToml existing template false))
        ["tool", name] = some c) ∧
    (∀ (existing template : List (String × TomlVal)) (name : String)
        (a b : List (String × TomlVal)),
      dlookup name (getTableD (dlookup "tool" existing)) =
        some (TomlVal.table a) →
      dlookup name (getTableD (dlookup "tool" template)) =
        some (TomlVal.table b) →
      ((getTableD (dlookup "tool" template)).map Prod.fst).Nodup →
      getPath (TomlVal.table (mergePyprojectToml existing template false))
        ["tool", name] = some (TomlVal.table (mergeDictRecursive a b))) := by
  refine ⟨?_, ?_, ?_⟩
  · intro existing template path v hg hnt
    rw [getPath_tool_additive]
    exact mergeDict_preserves _ _ path v hg hnt
  · intro existing template name c he ht hnd
    rw [getPath_tool_additive, getPath_single]
    exact dlookup_mergeDict_added _ he ht hnd
  · intro existing template name a b he ht hnd
    rw [getPath_tool_additive, getPath_single]
    exact dlookup_mergeDict_both_tables _ he ht hnd

/-- Witness for C5: a concrete additive merge exercising all three
conjuncts. -/
theorem additive_merge_preserves_existing_witness :
    getPath (TomlVal.table (mergePyprojectToml
        [("tool", TomlVal.table
          [("black", TomlVal.table [("line-length", TomlVal.num 100)]),
           ("ruff", TomlVal.str "keep")])]
        [("tool", TomlVal.table
          [("black", TomlVal.table
            [("line-length", TomlVal.num 88), ("target", TomlVal.str "py39")]),
           ("isort", TomlVal.table [("profile", TomlVal.str "black")])])]
        false)) ["tool", "black", "line-length"] = some (TomlVal.num 100) ∧
    getPath (TomlVal.table (mergePyprojectToml
        [("tool", TomlVal.table
          [("black", TomlVal.table [("line-length", TomlVal.num 100)]),
           ("ruff", TomlVal.str "keep")])]
        [("tool", TomlVal.table
          [("black", TomlVal.table
            [("line-length", TomlVal.num 88), ("target", TomlVal.str "py39")]),
           ("isort", TomlVal.table [("profile", TomlVal.str "black")])])]
        false)) ["tool", "isort"] =
      some (TomlVal.table [("profile", TomlVal.str "black")]) ∧
    getPath (TomlVal.table (mergePyprojectToml
        [("tool", TomlVal.table
          [("black", TomlVal.table [("line-length", TomlVal.num 100)]),
           ("ruff", TomlVal.str "keep")])]
        [("tool", TomlVal.table
          [("black", TomlVal.table
            [("line-length", TomlVal.num 88), ("target", TomlVal.str "py39")]),
           ("isort", TomlVal.table [("profile", TomlVal.str "black")])])]
        false)) ["tool", "black"] =
      some (TomlVal.table (mergeDictRecursive
        [("line-length", TomlVal.num 100)]
        [("line-length", TomlVal.num 88), ("target", TomlVal.str "py39")])) :=
  ⟨additive_merge_preserves_existing.1 _ _
      ["black", "line-length"] (TomlVal.num 100) (by rfl) (by rfl),
   additive_merge_preserves_existing.2.1 _ _ "isort"
      (TomlVal.table [("profile", TomlVal.str "black")]) (by rfl) (by rfl)
      (by decide),
   additive_merge_preserves_existing.2.2 _ _ "black"
      [("line-length", TomlVal.num 100)]
      [("line-length", TomlVal.num 88), ("target", TomlVal.str "py39")]
      (by rfl) (by rfl) (by decide)⟩

/-! ### Overwrite mode (C2) -/

theorem dlookup_overwriteToolStep_ne {k2 : String}
    (m : List (String × TomlVal)) (kv : String × TomlVal) (h : k2 ≠ kv.1) :
    dlookup k2 (overwriteToolStep m kv) = dlookup k2 m := by
  rw [overwriteToolStep]
  by_cases h1 : kv.1 = "pytest"
  · rw [if_pos h1]
    rw [h1] at h
    exact dlookup_dset_ne m _ h
  · rw [if_neg h1]
    by_cases h2 : toolsToOverwrite.any (fun t => pyStartsWith kv.1 t) = true
    · rw [if_pos h2]
      exact dlookup_dset_ne m _ h
    · rw [if_neg h2]
      by_cases h3 : (dlookup kv.1 m).isNone = true
      · rw [if_pos h3]
        exact dlookup_append_single_ne _ m h
      · rw [if_neg h3]

theorem dlookup_overwriteTools_not_mem {k : String}
    {t : List (String × TomlVal)} (m : List (String × TomlVal))
    (h : k ∉ t.map Prod.fst) :
    dlookup k (overwriteMergeTools m t) = dlookup k m := by
  induction t generalizing m with
  | nil => simp [overwriteMergeTools]
  | cons kv rest ih =>
    simp only [List.map_cons, List.mem_cons] at h
    push_neg at h
    rw [overwriteMergeTools, ih _ h.2,
      dlookup_overwriteToolStep_ne m kv h.1]

theorem allowlist_facts {k : String} (h : k ∈ toolsToOverwrite) :
    (toolsToOverwrite.any (fun t => pyStartsWith k t) = true) ∧ k ≠ "pytest" := by
  fin_cases h <;> exact ⟨by decide, by decide⟩

theorem overwriteToolStep_prefixed {k : String} {c : TomlVal}
    (m : List (String × TomlVal))
    (h1 : toolsToOverwrite.any (fun t => pyStartsWith k t) = true)
    (h2 : k ≠ "pytest") :
    overwriteToolStep m (k, c) = dset m k c := by
  simp [overwriteToolStep, h1, h2]

theorem dlookup_overwriteTools_prefixed {k : String} {c : TomlVal}
    {t : List (String × TomlVal)} (m : List (String × TomlVal))
    (hpre : toolsToOverwrite.any (fun t2 => pyStartsWith k t2) = true)
    (hnp : k ≠ "pytest") (ht : dlookup k t = some c)
    (hnd : (t.map Prod.fst).Nodup) :
    dlookup k (overwriteMergeTools m t) = some c := by
  induction t generalizing m with
  | nil => simp [dlookup] at ht
  | cons kv rest ih =>
    obtain ⟨k2, v⟩ := kv
    simp only [List.map_cons, List.nodup_cons] at hnd
    by_cases hk : k2 = k
    · subst hk
      simp [dlookup] at ht
      subst ht
      rw [overwriteMergeTools, dlookup_overwriteTools_not_mem _ hnd.1,
        overwriteToolStep_prefixed m hpre hnp]
      exact dlookup_dset_self m k2 _
    · simp [dlookup, hk] at ht
      rw [overwriteMergeTools]
      exact ih (overwriteToolStep m (k2, v)) ht hnd.2

theorem dlookup_overwriteTools_pytest {c : TomlVal}
    {t : List (String × TomlVal)} (m : List (String × TomlVal))
    (ht : dlookup "pytest" t = some c)
    (hnd : (t.map Prod.fst).Nodup) :
    dlookup "pytest" (overwriteMergeTools m t) =
      some (TomlVal.table
        (mergePytestSelectively (getTableD (dlookup "pytest" m))
          (getTableD (some c)))) := by
  induction t generalizing m with
  | nil => simp [dlookup] at ht
  | cons kv rest ih =>
    obtain ⟨k2, v⟩ := kv
    simp only [List.map_cons, List.nodup_cons] at hnd
    by_cases hk : k2 = "pytest"
    · subst hk
      simp [dlookup] at ht
      subst ht
      rw [overwriteMergeTools, dlookup_overwriteTools_not_mem _ hnd.1]
      have hstep : overwriteToolStep m ("pytest", v) =
          dset m "pytest" (TomlVal.table
            (mergePytestSelectively (getTableD (dlookup "pytest" m))
              (getTableD (some v)))) := by
        simp [overwriteToolStep]
      rw [hstep]
      exact dlookup_dset_self m _ _
    · simp [dlookup, hk] at ht
      rw [overwriteMergeTools]
      have hpre : dlookup "pytest" (overwriteToolStep m (k2, v)) =
          dlookup "pytest" m :=
        dlookup_overwriteToolStep_ne m (k2, v) (fun hh => hk hh.symm)
      rw [ih (overwriteToolStep m (k2, v)) ht hnd.2, hpre]

theorem dlookup_overwriteTools_untouched {k : String} {v : TomlVal}
    (t : List (String × TomlVal)) (m : List (String × TomlVal))
    (hnp : k ≠ "pytest")
    (hpre : ∀ t2 ∈ toolsToOverwrite, ¬ (pyStartsWith k t2 = true))
    (hm : dlookup k m = some v) :
    dlookup k (overwriteMergeTools m t) = some v := by
  induction t generalizing m with
  | nil => simpa [overwriteMergeTools] using hm
  | cons kv rest ih =>
    obtain ⟨k2, w⟩ := kv
    by_cases hk : k2 = k
    · subst hk
      have hany : ¬ (toolsToOverwrite.any (fun t2 => pyStartsWith k2 t2) = true) := by
        simp only [List.any_eq_true]
        rintro ⟨t2, ht2, hp⟩
        exact hpre t2 ht2 hp
      have hstep : overwriteToolStep m (k2, w) = m := by
        simp [overwriteToolStep, hnp, hany, hm]
      rw [overwriteMergeTools, hstep]
      exact ih m hm
    · rw [overwriteMergeTools]
      exact ih (overwriteToolStep m (k2, w))
        (by rw [dlookup_overwriteToolStep_ne m (k2, w)
          (fun hh => hk hh.symm)]; exact hm)

theorem dlookup_overwriteTools_added {k : String} {c : TomlVal}
    {t : List (String × TomlVal)} (m : List (String × TomlVal))
    (hnp : k ≠ "pytest")
    (hpre : ∀ t2 ∈ toolsToOverwrite, ¬ (pyStartsWith k t2 = true))
    (hm : dlookup k m = none) (ht : dlookup k t = some c)
    (hnd : (t.map Prod.fst).Nodup) :
    dlookup k (overwriteMergeTools m t) = some c := by
  induction t generalizing m with
  | nil => simp [dlookup] at ht
  | cons kv rest ih =>
    obtain ⟨k2, w⟩ := kv
    simp only [List.map_cons, List.nodup_cons] at hnd
    by_cases hk : k2 = k
    · subst hk
      simp [dlookup] at ht
      subst ht
      have hany : ¬ (toolsToOverwrite.any (fun t2 => pyStartsWith k2 t2) = true) := by
        simp only [List.any_eq_true]
        rintro ⟨t2, ht2, hp⟩
        exact hpre t2 ht2 hp
      have hstep : overwriteToolStep m (k2, w) = m ++ [(k2, w)] := by
        simp [overwriteToolStep, hnp, hany, hm]
      rw [overwriteMergeTools, hstep,
        dlookup_overwriteTools_not_mem _ hnd.1, dlookup_append_none hm]
      simp [dlookup]
    · simp [dlookup, hk] at ht
      rw [overwriteMergeTools]
      exact ih (overwriteToolStep m (k2, w))
        (by rw [dlookup_overwriteToolStep_ne m (k2, w)
          (fun hh => hk hh.symm)]; exact hm) ht hnd.2

theorem getPath_tool_overwrite (existing template : List (String × TomlVal))
    (path : List String) :
    getPath (TomlVal.table (mergePyprojectToml existing template true))
        ("tool" :: path) =
      getPath (TomlVal.table
        (overwriteMergeTools (getTableD (dlookup "tool" existing))
          (getTableD (dlookup "tool" template)))) path := by
  rw [getPath_table_cons, dlookup_tool_mergePyproject]
  simp

/-- C2 (amended): in overwrite mode (a) every tool name of the allow-list
present in the template gets exactly the template's value; (b) `pytest` goes
through the selective merge against the existing pytest table; (c) every
existing tool whose name does not START WITH any allow-listed name (and is
not `pytest`) keeps the existing value untouched — the source matches the
allow-list by name prefix (`startswith`), not by exact membership; (d) every
template tool neither existing, nor `pytest`, nor prefix-matched by the
allow-list is added with the template's value. -/
theorem overwrite_mode_merge :
    (∀ (existing template : List (String × TomlVal)) (name : String)
        (c : TomlVal),
      name ∈ toolsToOverwrite →
      dlookup name (getTableD (dlookup "tool" template)) = some c →
      ((getTableD (dlookup "tool" template)).map Prod.fst).Nodup →
      getPath (TomlVal.table (mergePyprojectToml existing template true))
        ["tool", name] = some c) ∧
    (∀ (existing template : List (String × TomlVal)) (c : TomlVal),
      dlookup "pytest" (getTableD (dlookup "tool" template)) = some c →
      ((getTableD (dlookup "tool" template)).map Prod.fst).Nodup →
      getPath (TomlVal.table (mergePyprojectToml existing template true))
        ["tool", "pytest"] = some (TomlVal.table
          (mergePytestSelectively
            (getTableD (dlookup "pytest" (getTableD (dlookup "tool" existing))))
            (getTableD (some c))))) ∧
    (∀ (existing template : List (String × TomlVal)) (name : String)
        (v : TomlVal),
      name ≠ "pytest" →
      (∀ t2 ∈ toolsToOverwrite, ¬ (pyStartsWith name t2 = true)) →
      dlookup name (getTableD (dlookup "tool" existing)) = some v →
      getPath (TomlVal.table (mergePyprojectToml existing template true))
        ["tool", name] = some v) ∧
    (∀ (existing template : List (String × TomlVal)) (name : String)
        (c : TomlVal),
      name ≠ "pytest" →
      (∀ t2 ∈ toolsToOverwrite, ¬ (pyStartsWith name t2 = true)) →
      dlookup name (getTableD (dlookup "tool" existing)) = none →
      dlookup name (getTableD (dlookup "tool" template)) = some c →
      ((getTableD (dlookup "tool" template)).map Prod.fst).Nodup →
      getPath (TomlVal.table (mergePyprojectToml existing template true))
        ["tool", name] = some c) := by
  refine ⟨?_, ?_, ?_, ?_⟩
  · intro existing template name c hmem ht hnd
    rw [getPath_tool_overwrite, getPath_single]
    obtain ⟨hpre, hnp⟩ := allowlist_facts hmem
    exact dlookup_overwriteTools_prefixed _ hpre hnp ht hnd
  · intro existing template c ht hnd
    rw [getPath_tool_overwrite, getPath_single]
    exact dlookup_overwriteTools_pytest _ ht hnd
  · intro existing template name v hnp hpre he
    rw [getPath_tool_overwrite, getPath_single]
    exact dlookup_overwriteTools_untouched _ _ hnp hpre he
  · intro existing template name c hnp hpre he ht hnd
    rw [getPath_tool_overwrite, getPath_single]
    exact dlookup_overwriteTools_added _ hnp hpre he ht hnd

/-- C2 counterexample: the tool `blackd` is outside the allow-list
(`blackd ∉ toolsToOverwrite`) and is not the test runner, and it is present
in the existing document, so per the claim overwrite mode should leave it
untouched; the merge instead replaces it with the template's value, because
the source matches the allow-list by name prefix. -/
theorem overwrite_mode_counterexample :
    "blackd" ∉ toolsToOverwrite ∧ "blackd" ≠ "pytest" ∧
    getPath (TomlVal.table (mergePyprojectToml
        [("tool", TomlVal.table [("blackd", TomlVal.str "keep")])]
        [("tool", TomlVal.table [("blackd", TomlVal.str "template")])] true))
      ["tool", "blackd"] = some (TomlVal.str "template") ∧
    getPath (TomlVal.table (mergePyprojectToml
        [("tool", TomlVal.table [("blackd", TomlVal.str "keep")])]
        [("tool", TomlVal.table [("blackd", TomlVal.str "template")])] true))
      ["tool", "blackd"] ≠ some (TomlVal.str "keep") := by
  refine ⟨by decide, by decide, rfl, ?_⟩
  intro h
  rw [show getPath (TomlVal.table (mergePyprojectToml
      [("tool", TomlVal.table [("blackd", TomlVal.str "keep")])]
      [("tool", TomlVal.table [("blackd", TomlVal.str "template")])] true))
      ["tool", "blackd"] = some (TomlVal.str "template") from rfl] at h
  simp at h

/-- Witness for C2 (amended), exercising all four conjuncts on one concrete
document pair. -/
theorem overwrite_mode_merge_witness :
    getPath (TomlVal.table (mergePyprojectToml
        [("tool", TomlVal.table
          [("black", TomlVal.str "old"), ("hatch", TomlVal.str "mine"),
           ("pytest", TomlVal.table
             [("ini_options", TomlVal.table
               [("testpaths", TomlVal.arr [TomlVal.str "tests"])])])])]
        [("tool", TomlVal.table
          [("black", TomlVal.str "new"),
           ("pytest", TomlVal.table
             [("ini_options", TomlVal.table
               [("minversion", TomlVal.str "6.0")])]),
           ("poetry", TomlVal.str "added")])] true))
      ["tool", "black"] = some (TomlVal.str "new") ∧
    getPath (TomlVal.table (mergePyprojectToml
        [("tool", TomlVal.table
          [("black", TomlVal.str "old"), ("hatch", TomlVal.str "mine"),
           ("pytest", TomlVal.table
             [("ini_options", TomlVal.table
               [("testpaths", TomlVal.arr [TomlVal.str "tests"])])])])]
        [("tool", TomlVal.table
          [("black", TomlVal.str "new"),
           ("pytest", TomlVal.table
             [("ini_options", TomlVal.table
               [("minversion", TomlVal.str "6.0")])]),
           ("poetry", TomlVal.str "added")])] true))
      ["tool", "pytest"] = some (TomlVal.table
        (mergePytestSelectively
          [("ini_options", TomlVal.table
            [("testpaths", TomlVal.arr [TomlVal.str "tests"])])]
          [("ini_options", TomlVal.table
            [("minversion", TomlVal.str "6.0")])])) ∧
    getPath (TomlVal.table (mergePyprojectToml
        [("tool", TomlVal.table
          [("black", TomlVal.str "old"), ("hatch", TomlVal.str "mine"),
           ("pytest", TomlVal.table
             [("ini_options", TomlVal.table
               [("testpaths", TomlVal.arr [TomlVal.str "tests"])])])])]
        [("tool", TomlVal.table
          [("black", TomlVal.str "new"),
           ("pytest", TomlVal.table
             [("ini_options", TomlVal.table
               [("minversion", TomlVal.str "6.0")])]),
           ("poetry", TomlVal.str "added")])] true))
      ["tool", "hatch"] = some (TomlVal.str "mine") ∧
    getPath (TomlVal.table (mergePyprojectToml
        [("tool", TomlVal.table
          [("black", TomlVal.str "old"), ("hatch", TomlVal.str "mine"),
           ("pytest", TomlVal.table
             [("ini_options", TomlVal.table
               [("testpaths", TomlVal.arr [TomlVal.str "tests"])])])])]
        [("tool", TomlVal.table
          [("black", TomlVal.str "new"),
           ("pytest", TomlVal.table
             [("ini_options", TomlVal.table
               [("minversion", TomlVal.str "6.0")])]),
           ("poetry", TomlVal.str "added")])] true))
      ["tool", "poetry"] = some (TomlVal.str "added") :=
  ⟨overwrite_mode_merge.1 _ _ "black" _ (by decide) rfl (by decide),
   overwrite_mode_merge.2.1 _ _
     (TomlVal.table [("ini_options", TomlVal.table
       [("minversion", TomlVal.str "6.0")])]) rfl (by decide),
   overwrite_mode_merge.2.2.1 _ _ "hatch" _ (by decide) (by decide) rfl,
   overwrite_mode_merge.2.2.2 _ _ "poetry" _ (by decide) (by decide) rfl rfl
     (by decide)⟩

/-! ### Missing input files (C4) -/

/-- C4 (amended): a missing input file makes the duplicate-section repairer
and the workflow processor report and exit non-zero, and a missing template
file makes the configuration merger exit non-zero; the merger's
existing-document path however is optional: when that file is missing the
existing document is treated as empty and the merge proceeds, exiting 0. -/
theorem missing_input_exit :
    (∀ (α : Type) (fs : String → Option α) (p : String),
      fs p = none → fixScriptExitCode fs p = 1) ∧
    (∀ (α : Type) (fs : String → Option α) (p : String),
      fs p = none → processScriptExitCode fs p = 1) ∧
    (∀ (fs : String → Option (List (String × TomlVal))) (ep tp : String)
        (ow : Bool), fs tp = none → mergeScriptExitCode fs ep tp ow = 1) ∧
    (∀ (fs : String → Option (List (String × TomlVal))) (ep tp : String)
        (ow : Bool) (d : List (String × TomlVal)),
      fs tp = some d → mergeScriptExitCode fs ep tp ow = 0) := by
  refine ⟨?_, ?_, ?_, ?_⟩
  · intro α fs p h
    simp [fixScriptExitCode, h]
  · intro α fs p h
    simp [processScriptExitCode, h]
  · intro fs ep tp ow h
    simp [mergeScriptExitCode, mergeScriptRun, h]
  · intro fs ep tp ow d h
    simp [mergeScriptExitCode, mergeScriptRun, h]

/-- C4 counterexample: invoking the merger with an existing-document path
that does not exist on the filesystem (while the template exists) exits 0,
not non-zero: the merger treats the missing existing document as empty. -/
theorem missing_existing_counterexample :
    (fun p => if p = "template.toml"
        then some ([] : List (String × TomlVal)) else none) "pyproject.toml"
      = none ∧
    mergeScriptExitCode
      (fun p => if p = "template.toml"
        then some ([] : List (String × TomlVal)) else none)
      "pyproject.toml" "template.toml" false = 0 := by
  constructor
  · rfl
  · rfl

/-- Witness for C4 (amended) at concrete filesystems. -/
theorem missing_input_exit_witness :
    fixScriptExitCode (fun _ => (none : Option (List Char)))
      "pyproject.toml" = 1 ∧
    processScriptExitCode (fun _ => (none : Option (List Seg)))
      "workflow.yml" = 1 ∧
    mergeScriptExitCode (fun _ => (none : Option (List (String × TomlVal))))
      "pyproject.toml" "template.toml" false = 1 ∧
    mergeScriptExitCode
      (fun _ => some ([] : List (String × TomlVal)))
      "pyproject.toml" "template.toml" true = 0 :=
  ⟨missing_input_exit.1 _ _ _ rfl,
   missing_input_exit.2.1 _ _ _ rfl,
   missing_input_exit.2.2.1 _ _ _ _ rfl,
   missing_input_exit.2.2.2 _ _ _ _ [] rfl⟩

/-! ### The selective pytest merge (C6, C7, C10) -/

theorem dlookup_copyMissing_some {k : String} {v : TomlVal}
    {src : List (String × TomlVal)} (m : List (String × TomlVal))
    (h : dlookup k m = some v) :
    dlookup k (copyMissing m src) = some v := by
  induction src generalizing m with
  | nil => simpa [copyMissing] using h
  | cons kv rest ih =>
    rw [copyMissing]
    by_cases hc : (dlookup kv.1 m).isSome = true
    · rw [if_pos hc]
      exact ih m h
    · rw [if_neg hc]
      exact ih _ (dlookup_append_left h)

theorem dlookup_addMarkersIni_ne {k : String} (ei ti : List (String × TomlVal))
    (m : List (String × TomlVal)) (h : k ≠ "markers") :
    dlookup k (addMarkersIni ei ti m) = dlookup k m := by
  rw [addMarkersIni]
  by_cases hc : (mergeMarkers
      (markerStrings ((dlookup "markers" ti).getD (TomlVal.arr [])))
      (markerStrings ((dlookup "markers" ei).getD (TomlVal.arr [])))).isEmpty = true
  · simp only [hc, if_pos]
  · simp only [hc]
    rw [if_neg (by simp [hc])]
    exact dlookup_dset_ne m _ h

theorem mergePytestSelectively_present {ep tp : List (String × TomlVal)}
    {ei ti : List (String × TomlVal)}
    (hep : dlookup "ini_options" ep = some (TomlVal.table ei))
    (htp : dlookup "ini_options" tp = some (TomlVal.table ti)) :
    mergePytestSelectively ep tp =
      [("ini_options", TomlVal.table (buildMergedIni ei ti))] := by
  rw [mergePytestSelectively, hep, htp]
  simp [getTableD]

theorem getPath_ini_key (ini : List (String × TomlVal)) (k : String) :
    getPath (TomlVal.table [("ini_options", TomlVal.table ini)])
      ["ini_options", k] = dlookup k ini := by
  rw [getPath_table_cons]
  simp [dlookup]
  exact getPath_single ini k

/-- C6: in the selective test-runner merge with string `addopts` on both
sides and a non-empty existing value, the merged `addopts` is the template's
split tokens followed by the coverage tokens extracted from the existing
value, de-duplicated keeping first occurrences and joined with single
spaces. -/
theorem selective_addopts_merge :
    ∀ (ep tp ei ti : List (String × TomlVal)) (e t : String),
      dlookup "ini_options" ep = some (TomlVal.table ei) →
      dlookup "ini_options" tp = some (TomlVal.table ti) →
      dlookup "addopts" ei = some (TomlVal.str e) →
      dlookup "addopts" ti = some (TomlVal.str t) →
      e ≠ "" →
      markersOk ei → markersOk ti →
      getPath (TomlVal.table (mergePytestSelectively ep tp))
        ["ini_options", "addopts"] =
        some (TomlVal.str (joinSpace
          (dedupFirst (pySplit t ++ (extractCov (pySplit e)).1)))) := by
  intro ep tp ei ti e t hep htp hea hta hne _ _
  rw [mergePytestSelectively_present hep htp, getPath_ini_key]
  show dlookup "addopts"
    (copyMissing (copyMissing
      (addMarkersIni ei ti (addAddopts ei ti
        (projectKeys.foldl (setFromEither ei ti)
          (match dlookup "minversion" ti with
           | some v => [("minversion", v)]
           | none => [])))) ei) ti) = _
  apply dlookup_copyMissing_some
  apply dlookup_copyMissing_some
  rw [dlookup_addMarkersIni_ne ei ti _ (by decide)]
  rw [addAddopts, hea, hta]
  have htr : tomlTruthy ((some (TomlVal.str e)).getD (TomlVal.arr [])) = true := by
    simp [tomlTruthy]
    exact Bool.eq_false_iff.mpr
      (fun hh => hne ((String.isEmpty_iff e).mp hh))
  rw [if_pos htr]
  exact dlookup_dset_self _ _ _

/-- Witness for C6: the concrete example of the specification — existing
`addopts = "--cov=pkg --verbose"`, template `addopts = "-ra --strict"`,
merged result `"-ra --strict --cov=pkg"`. -/
theorem selective_addopts_merge_witness :
    getPath (TomlVal.table (mergePytestSelectively
        [("ini_options", TomlVal.table
          [("addopts", TomlVal.str "--cov=pkg --verbose")])]
        [("ini_options", TomlVal.table
          [("addopts", TomlVal.str "-ra --strict")])]))
      ["ini_options", "addopts"] =
      some (TomlVal.str "-ra --strict --cov=pkg") := by
  have h := selective_addopts_merge
    [("ini_options", TomlVal.table
      [("addopts", TomlVal.str "--cov=pkg --verbose")])]
    [("ini_options", TomlVal.table
      [("addopts", TomlVal.str "-ra --strict")])]
    [("addopts", TomlVal.str "--cov=pkg --verbose")]
    [("addopts", TomlVal.str "-ra --strict")]
    "--cov=pkg --verbose" "-ra --strict" rfl rfl rfl rfl (by decide)
    (by intro v hv; simp [dlookup] at hv)
    (by intro v hv; simp [dlookup] at hv)
  rw [h]
  rfl

/-- C10: whenever at least one side of the selective test-runner merge has
an `ini_options` sub-mapping, the result's only key is `ini_options` — every
other key of the existing test-runner tool table is dropped. -/
theorem selective_merge_only_ini_options :
    ∀ (ep tp : List (String × TomlVal)),
      pytestWF ep → pytestWF tp →
      ((dlookup "ini_options" ep).isSome ∨ (dlookup "ini_options" tp).isSome) →
      (mergePytestSelectively ep tp).map Prod.fst = ["ini_options"] := by
  intro ep tp _ _ h
  rcases h with h | h
  · obtain ⟨v, hv⟩ := Option.isSome_iff_exists.mp h
    simp [mergePytestSelectively, hv]
  · obtain ⟨v, hv⟩ := Option.isSome_iff_exists.mp h
    simp [mergePytestSelectively, hv]

/-- Witness for C10: an existing pytest table with a key beside
`ini_options` loses that key in the merged result. -/
theorem selective_merge_only_ini_options_witness :
    (mergePytestSelectively
      [("ini_options", TomlVal.table
        [("testpaths", TomlVal.arr [TomlVal.str "tests"])]),
       ("legacy", TomlVal.str "dropped")]
      [("ini_options", TomlVal.table
        [("minversion", TomlVal.str "6.0")])]).map Prod.fst =
      ["ini_options"] :=
  selective_merge_only_ini_options
    [("ini_options", TomlVal.table
      [("testpaths", TomlVal.arr [TomlVal.str "tests"])]),
     ("legacy", TomlVal.str "dropped")]
    [("ini_options", TomlVal.table
      [("minversion", TomlVal.str "6.0")])]
    (by
      intro v hv
      simp [dlookup] at hv
      exact ⟨[("testpaths", TomlVal.arr [TomlVal.str "tests"])], hv.symm,
        by intro w hw; simp [dlookup] at hw,
        by intro w hw; simp [dlookup] at hw⟩)
    (by
      intro v hv
      simp [dlookup] at hv
      exact ⟨[("minversion", TomlVal.str "6.0")], hv.symm,
        by intro w hw; simp [dlookup] at hw,
        by intro w hw; simp [dlookup] at hw⟩)
    (Or.inl rfl)

theorem addMarkersAux_acc (ms : List String) :
    ∀ (names acc : List String),
      (addMarkersAux names acc ms).2 = acc ++ dedupByNameAux names ms := by
  induction ms with
  | nil => intro names acc; simp [addMarkersAux, dedupByNameAux]
  | cons m rest ih =>
    intro names acc
    by_cases hm : markerName m ∈ names
    · rw [addMarkersAux, if_pos hm, dedupByNameAux, if_pos hm]
      exact ih names acc
    · rw [addMarkersAux, if_neg hm, dedupByNameAux, if_neg hm]
      rw [ih (markerName m :: names) (acc ++ [m])]
      simp

theorem addMarkersAux_names (ms : List String) :
    ∀ (names acc : List String) (x : String),
      x ∈ (addMarkersAux names acc ms).1 ↔
        x ∈ names ∨ x ∈ ms.map markerName := by
  induction ms with
  | nil => intro names acc x; simp [addMarkersAux]
  | cons m rest ih =>
    intro names acc x
    by_cases hm : markerName m ∈ names
    · rw [addMarkersAux, if_pos hm]
      rw [ih names acc x]
      simp only [List.map_cons, List.mem_cons]
      constructor
      · rintro (h | h)
        · exact Or.inl h
        · exact Or.inr (Or.inr h)
      · rintro (h | h | h)
        · exact Or.inl h
        · exact Or.inl (h ▸ hm)
        · exact Or.inr h
    · rw [addMarkersAux, if_neg hm]
      rw [ih (markerName m :: names) (acc ++ [m]) x]
      simp only [List.mem_cons, List.map_cons]
      tauto

theorem dedupByNameAux_congr (em : List String) :
    ∀ (A B : List String), (∀ x, x ∈ A ↔ x ∈ B) →
      dedupByNameAux A em = dedupByNameAux B em := by
  induction em with
  | nil => intro A B _; simp [dedupByNameAux]
  | cons m rest ih =>
    intro A B hAB
    by_cases hm : markerName m ∈ A
    · rw [dedupByNameAux, if_pos hm, dedupByNameAux,
        if_pos ((hAB _).mp hm)]
      exact ih A B hAB
    · rw [dedupByNameAux, if_neg hm, dedupByNameAux,
        if_neg (fun hh => hm ((hAB _).mpr hh))]
      rw [ih (markerName m :: A) (markerName m :: B)
        (fun x => by simp only [List.mem_cons]; rw [hAB x])]

theorem dedupByNameAux_filter (em : List String) :
    ∀ (tnames seen : List String),
      dedupByNameAux (tnames ++ seen) em =
        dedupByNameAux seen
          (em.filter (fun m => !(tnames.contains (markerName m)))) := by
  induction em with
  | nil => intro tnames seen; simp [dedupByNameAux]
  | cons m rest ih =>
    intro tnames seen
    by_cases ht : markerName m ∈ tnames
    · have hmem : markerName m ∈ tnames ++ seen := List.mem_append_left _ ht
      have hcont : tnames.contains (markerName m) = true :=
        List.elem_iff.mpr ht
      rw [dedupByNameAux, if_pos hmem]
      rw [List.filter_cons]
      simp only [hcont, Bool.not_true, if_neg]
      exact ih tnames seen
    · have hcont : tnames.contains (markerName m) = false := by
        rcases hc : tnames.contains (markerName m) with _ | _
        · rfl
        · exact absurd (List.elem_iff.mp hc) ht
      by_cases hs : markerName m ∈ seen
      · have hmem : markerName m ∈ tnames ++ seen := List.mem_append_right _ hs
        rw [dedupByNameAux, if_pos hmem]
        rw [List.filter_cons]
        simp only [hcont, Bool.not_false, if_pos]
        rw [dedupByNameAux, if_pos hs]
        exact ih tnames seen
      · have hmem : markerName m ∉ tnames ++ seen := by
          rw [List.mem_append]
          rintro (h | h)
          · exact ht h
          · exact hs h
        rw [dedupByNameAux, if_neg hmem]
        rw [List.filter_cons]
        simp only [hcont, Bool.not_false, if_pos]
        rw [dedupByNameAux, if_neg hs]
        rw [dedupByNameAux_congr rest (markerName m :: (tnames ++ seen))
          (tnames ++ (markerName m :: seen))
          (fun x => by simp only [List.mem_cons, List.mem_append]; tauto)]
        rw [ih tnames (markerName m :: seen)]

/-- The marker loop of the source computes exactly the marker union as the
specification words it. -/
theorem mergeMarkers_eq_spec (tm em : List String) :
    mergeMarkers tm em = markersSpec tm em := by
  rw [mergeMarkers, markersSpec]
  rw [addMarkersAux_acc em, addMarkersAux_acc tm]
  simp only [List.nil_append]
  rw [dedupByNameAux_congr em (addMarkersAux [] [] tm).1
      (tm.map markerName ++ [])
      (fun x => by
        rw [addMarkersAux_names tm [] [] x]
        simp)]
  rw [dedupByNameAux_filter em (tm.map markerName) []]
  rfl

theorem markerStrings_map_str (l : List String) :
    markerStrings (TomlVal.arr (l.map TomlVal.str)) = l := by
  rw [markerStrings, List.map_map]
  have h : (asStr ∘ TomlVal.str) = id := by funext s; rfl
  rw [h, List.map_id]

/-- C7: in the selective test-runner merge with marker string lists on both
sides, the merged `markers` list is the union by marker name of the template
markers followed by the existing markers whose names are not already
present — template entries win on name collision and duplicate-named
existing entries are dropped (`markersSpec` is that union, written from the
specification; `mergeMarkers_eq_spec` connects it to the source loop). -/
theorem selective_markers_union :
    ∀ (ep tp ei ti : List (String × TomlVal)) (em tm : List String),
      dlookup "ini_options" ep = some (TomlVal.table ei) →
      dlookup "ini_options" tp = some (TomlVal.table ti) →
      dlookup "markers" ei = some (TomlVal.arr (em.map TomlVal.str)) →
      dlookup "markers" ti = some (TomlVal.arr (tm.map TomlVal.str)) →
      addoptsOk ei → addoptsOk ti →
      markersSpec tm em ≠ [] →
      getPath (TomlVal.table (mergePytestSelectively ep tp))
        ["ini_options", "markers"] =
        some (TomlVal.arr ((markersSpec tm em).map TomlVal.str)) := by
  intro ep tp ei ti em tm hep htp hem htm _ _ hne
  rw [mergePytestSelectively_present hep htp, getPath_ini_key]
  show dlookup "markers"
    (copyMissing (copyMissing
      (addMarkersIni ei ti (addAddopts ei ti
        (projectKeys.foldl (setFromEither ei ti)
          (match dlookup "minversion" ti with
           | some v => [("minversion", v)]
           | none => [])))) ei) ti) = _
  apply dlookup_copyMissing_some
  apply dlookup_copyMissing_some
  rw [addMarkersIni, hem, htm]
  simp only [Option.getD_some]
  rw [markerStrings_map_str, markerStrings_map_str]
  rw [mergeMarkers_eq_spec tm em]
  have hne2 : (markersSpec tm em).isEmpty = false := by
    rcases hx : markersSpec tm em with _ | ⟨a, rest⟩
    · exact absurd hx hne
    · rfl
  rw [if_neg (by simp [hne2])]
  exact dlookup_dset_self _ _ _

/-- Witness for C7: the concrete example of the specification — existing
markers `["slow: desc1"]`, template markers `["slow: desc2", "fast: desc3"]`,
merged result `["slow: desc2", "fast: desc3"]`. -/
theorem selective_markers_union_witness :
    getPath (TomlVal.table (mergePytestSelectively
        [("ini_options", TomlVal.table
          [("markers", TomlVal.arr [TomlVal.str "slow: desc1"])])]
        [("ini_options", TomlVal.table
          [("markers", TomlVal.arr
            [TomlVal.str "slow: desc2", TomlVal.str "fast: desc3"])])]))
      ["ini_options", "markers"] =
      some (TomlVal.arr
        [TomlVal.str "slow: desc2", TomlVal.str "fast: desc3"]) := by
  have h := selective_markers_union
    [("ini_options", TomlVal.table
      [("markers", TomlVal.arr [TomlVal.str "slow: desc1"])])]
    [("ini_options", TomlVal.table
      [("markers", TomlVal.arr
        [TomlVal.str "slow: desc2", TomlVal.str "fast: desc3"])])]
    [("markers", TomlVal.arr [TomlVal.str "slow: desc1"])]
    [("markers", TomlVal.arr
      [TomlVal.str "slow: desc2", TomlVal.str "fast: desc3"])]
    ["slow: desc1"] ["slow: desc2", "fast: desc3"]
    rfl rfl rfl rfl
    (by intro v hv; simp [dlookup] at hv)
    (by intro v hv; simp [dlookup] at hv)
    (by decide)
  rw [h]
  rfl

/-! ### The workflow template processor (C8) -/

theorem itemsToSegs_cons (i : TItem) (rest : List TItem) :
    itemsToSegs (i :: rest) = itemSegs i ++ itemsToSegs rest := by
  simp [itemsToSegs]

theorem isBlockOf_plain (n s : String) :
    isBlockOf n (TItem.plain s) = false := rfl

theorem isBlockOf_block (n m s : String) :
    isBlockOf n (TItem.block m s) = decide (m = n) := rfl

theorem unwrapIf_plain (n s : String) :
    unwrapIf n (TItem.plain s) = TItem.plain s := rfl

theorem unwrapIf_block (n m s : String) :
    unwrapIf n (TItem.block m s) =
      if m = n then TItem.plain s else TItem.block m s := rfl

theorem stripMarkers_append (n : String) (a b : List Seg) :
    stripMarkers n (a ++ b) = stripMarkers n a ++ stripMarkers n b := by
  simp [stripMarkers]

theorem stripMarkers_item (n : String) (i : TItem) :
    stripMarkers n (itemSegs i) = itemSegs (unwrapIf n i) := by
  cases i with
  | plain s => rfl
  | block m s =>
    by_cases hm : m = n
    · subst hm
      simp [itemSegs, stripMarkers, unwrapIf_block]
    · simp [itemSegs, stripMarkers, unwrapIf_block, hm]

theorem stripMarkers_items (n : String) (items : List TItem) :
    stripMarkers n (itemsToSegs items) =
      itemsToSegs (items.map (unwrapIf n)) := by
  induction items with
  | nil => rfl
  | cons i rest ih =>
    rw [itemsToSegs_cons, stripMarkers_append, stripMarkers_item, ih,
      List.map_cons, itemsToSegs_cons]

theorem removeBlocksAux_item (n : String) (i : TItem) (T : List Seg) :
    removeBlocksAux n (itemSegs i ++ T) none =
      (if isBlockOf n i then [] else itemSegs i) ++
        removeBlocksAux n T none := by
  cases i with
  | plain s => simp [itemSegs, removeBlocksAux, isBlockOf_plain]
  | block m s =>
    by_cases hm : m = n
    · subst hm
      simp [itemSegs, removeBlocksAux, isBlockOf_block]
    · simp [itemSegs, removeBlocksAux, isBlockOf_block, hm]

theorem removeBlocks_items (n : String) (items : List TItem) :
    removeBlocks n (itemsToSegs items) =
      itemsToSegs (items.filter (fun i => !(isBlockOf n i))) := by
  induction items with
  | nil => rfl
  | cons i rest ih =>
    rw [removeBlocks, itemsToSegs_cons, removeBlocksAux_item,
      List.filter_cons]
    rw [removeBlocks] at ih
    by_cases hb : isBlockOf n i
    · rw [if_pos hb, ih]
      simp [hb]
    · rw [if_neg hb, ih]
      simp only [hb, Bool.not_false, if_pos]
      rw [itemsToSegs_cons]

theorem map_unwrapIf_of_no_block {n : String} {items : List TItem}
    (h : ∀ m s, TItem.block m s ∈ items → m ≠ n) :
    items.map (unwrapIf n) = items := by
  induction items with
  | nil => rfl
  | cons i rest ih =>
    rw [List.map_cons,
      ih (fun m s hm => h m s (List.mem_cons_of_mem _ hm))]
    cases i with
    | plain s => rfl
    | block m s =>
      rw [unwrapIf_block, if_neg (h m s (List.mem_cons_self _ _))]

theorem filter_of_no_block {n : String} {items : List TItem}
    (h : ∀ m s, TItem.block m s ∈ items → m ≠ n) :
    items.filter (fun i => !(isBlockOf n i)) = items := by
  induction items with
  | nil => rfl
  | cons i rest ih =>
    rw [List.filter_cons,
      ih (fun m s hm => h m s (List.mem_cons_of_mem _ hm))]
    cases i with
    | plain s => simp [isBlockOf_plain]
    | block m s =>
      simp [isBlockOf_block, h m s (List.mem_cons_self _ _)]

theorem phasesToKeep_two :
    phasesToKeep 2 = ["PHASE_2", "PHASE_1_OR_HIGHER", "PHASE_2_OR_HIGHER"] := by
  decide

theorem phase2_pipeline_cons (i : TItem) (rest : List TItem)
    (hn : ∀ n s, i = TItem.block n s → n ∈ allPhases) :
    itemsToSegs
      (List.map (unwrapIf "PHASE_2_OR_HIGHER")
        (List.map (unwrapIf "PHASE_1_OR_HIGHER")
          (List.filter (fun i => !(isBlockOf "PHASE_3" i))
            (List.map (unwrapIf "PHASE_2")
              (List.filter (fun i => !(isBlockOf "PHASE_1" i))
                (List.filter (fun i => !(isBlockOf "PHASE_0" i))
                  (i :: rest))))))) =
      (match i with
       | TItem.plain s => [Seg.lit s]
       | TItem.block n s =>
         if n = "PHASE_2" ∨ n = "PHASE_1_OR_HIGHER" ∨
            n = "PHASE_2_OR_HIGHER"
         then [Seg.lit s] else []) ++
      itemsToSegs
        (List.map (unwrapIf "PHASE_2_OR_HIGHER")
          (List.map (unwrapIf "PHASE_1_OR_HIGHER")
            (List.filter (fun i => !(isBlockOf "PHASE_3" i))
              (List.map (unwrapIf "PHASE_2")
                (List.filter (fun i => !(isBlockOf "PHASE_1" i))
                  (List.filter (fun i => !(isBlockOf "PHASE_0" i))
                    rest)))))) := by
  rcases i with s | ⟨n, s⟩
  · simp [List.filter_cons, List.map_cons, isBlockOf_plain, unwrapIf_plain,
      itemsToSegs_cons, itemSegs]
  · have hmem := hn n s rfl
    simp only [allPhases, List.mem_cons, List.not_mem_nil, or_false] at hmem
    rcases hmem with rfl | rfl | rfl | rfl | rfl | rfl <;>
      simp [List.filter_cons, List.map_cons, isBlockOf_block,
        isBlockOf_plain, unwrapIf_block, unwrapIf_plain,
        itemsToSegs_cons, itemSegs]

/-- C8: at phase 2, the processor keeps the interior of every matched
`PHASE_2`, `PHASE_1_OR_HIGHER` and `PHASE_2_OR_HIGHER` block (only the
begin/end markers are removed) and removes entirely — markers and interior —
every matched `PHASE_0`, `PHASE_1` and `PHASE_3` block, for any frontend and
backend flags. -/
theorem phase2_processing :
    ∀ (items : List TItem) (hf hb : Bool),
      (∀ n s, TItem.block n s ∈ items → n ∈ allPhases) →
      processTemplate ⟨2, hf, hb⟩ (itemsToSegs items) =
        (items.map (fun i =>
          match i with
          | TItem.plain s => [Seg.lit s]
          | TItem.block n s =>
            if n = "PHASE_2" ∨ n = "PHASE_1_OR_HIGHER" ∨
               n = "PHASE_2_OR_HIGHER"
            then [Seg.lit s] else [])).flatten := by
  intro items hf hb hnames
  have hfr : ∀ m s, TItem.block m s ∈ items → m ≠ "HAS_FRONTEND" := by
    intro m s hm hEq
    have hmem := hnames m s hm
    subst hEq
    revert hmem
    decide
  have hbk : ∀ m s, TItem.block m s ∈ items → m ≠ "HAS_BACKEND" := by
    intro m s hm hEq
    have hmem := hnames m s hm
    subst hEq
    revert hmem
    decide
  rw [processTemplate]
  have h1 : boolGate hf "HAS_FRONTEND" (itemsToSegs items) =
      itemsToSegs items := by
    rw [boolGate]
    cases hf with
    | true =>
      rw [if_pos rfl, stripMarkers_items, map_unwrapIf_of_no_block hfr]
    | false =>
      rw [if_neg (by simp), removeBlocks_items, filter_of_no_block hfr]
  rw [h1]
  have h2 : boolGate hb "HAS_BACKEND" (itemsToSegs items) =
      itemsToSegs items := by
    rw [boolGate]
    cases hb with
    | true =>
      rw [if_pos rfl, stripMarkers_items, map_unwrapIf_of_no_block hbk]
    | false =>
      rw [if_neg (by simp), removeBlocks_items, filter_of_no_block hbk]
  rw [h2]
  simp only [allPhases, List.foldl_cons, List.foldl_nil, phasesToKeep_two]
  rw [if_pos (by decide), if_pos (by decide), if_neg (by decide),
    if_pos (by decide), if_neg (by decide), if_neg (by decide)]
  rw [removeBlocks_items, removeBlocks_items, stripMarkers_items,
    removeBlocks_items, stripMarkers_items, stripMarkers_items]
  clear hfr hbk h1 h2
  revert hnames
  induction items with
  | nil => intro _; rfl
  | cons i rest ih =>
    intro hnames
    rw [phase2_pipeline_cons i rest
      (fun n s hEq => hnames n s
        (by rw [hEq]; exact List.mem_cons_self _ _))]
    rw [ih (fun n s hm => hnames n s (List.mem_cons_of_mem _ hm))]
    rw [List.map_cons, List.flatten_cons]
    cases i <;> rfl

/-- Witness for C8: a concrete template with one block of each phase kind
processed at phase 2. -/
theorem phase2_processing_witness :
    processTemplate ⟨2, true, false⟩ (itemsToSegs
      [TItem.plain "head", TItem.block "PHASE_0" "p0",
       TItem.block "PHASE_1" "p1", TItem.block "PHASE_2" "p2",
       TItem.block "PHASE_3" "p3", TItem.block "PHASE_1_OR_HIGHER" "p1h",
       TItem.block "PHASE_2_OR_HIGHER" "p2h"]) =
      [Seg.lit "head", Seg.lit "p2", Seg.lit "p1h", Seg.lit "p2h"] := by
  have h := phase2_processing
    [TItem.plain "head", TItem.block "PHASE_0" "p0",
     TItem.block "PHASE_1" "p1", TItem.block "PHASE_2" "p2",
     TItem.block "PHASE_3" "p3", TItem.block "PHASE_1_OR_HIGHER" "p1h",
     TItem.block "PHASE_2_OR_HIGHER" "p2h"] true false
    (by
      intro n s hm
      simp only [List.mem_cons, List.not_mem_nil, or_false] at hm
      rcases hm with h | h | h | h | h | h | h
      · simp at h
      all_goals
        obtain ⟨h1, h2⟩ := TItem.block.inj h
      all_goals subst h1
      all_goals decide)
  rw [h]
  rfl

/-! ### The duplicate-section repairer (C3, C9) -/

theorem headerChars_length : headerChars.length = 25 := by decide

theorem findHeader_eq {l a b : List Char}
    (h : findHeader l = some (a, b)) : l = a ++ headerChars ++ b := by
  induction l generalizing a b with
  | nil => simp [findHeader] at h
  | cons c rest ih =>
    rw [findHeader] at h
    by_cases hp : headerChars.isPrefixOf (c :: rest) = true
    · rw [if_pos hp] at h
      obtain ⟨t, ht⟩ := List.isPrefixOf_iff_prefix.mp hp
      rw [Option.some.injEq, Prod.mk.injEq] at h
      obtain ⟨ha, hb⟩ := h
      subst ha
      rw [← ht, List.drop_left] at hb
      subst hb
      rw [← ht]
      simp
    · rw [if_neg hp] at h
      rcases hfr : findHeader rest with _ | ⟨a0, b0⟩
      · rw [hfr] at h; simp at h
      · rw [hfr, Option.some.injEq, Prod.mk.injEq] at h
        obtain ⟨ha, hb⟩ := h
        subst ha
        subst hb
        rw [ih hfr]
        simp

theorem findHeader_min {l a b : List Char}
    (h : findHeader l = some (a, b)) :
    ∀ a2 b2, l = a2 ++ headerChars ++ b2 → a.length ≤ a2.length := by
  induction l generalizing a b with
  | nil => simp [findHeader] at h
  | cons c rest ih =>
    intro a2 b2 hl
    rw [findHeader] at h
    by_cases hp : headerChars.isPrefixOf (c :: rest) = true
    · rw [if_pos hp, Option.some.injEq, Prod.mk.injEq] at h
      obtain ⟨ha, _⟩ := h
      subst ha
      simp
    · rw [if_neg hp] at h
      rcases hfr : findHeader rest with _ | ⟨a0, b0⟩
      · rw [hfr] at h; simp at h
      · rw [hfr, Option.some.injEq, Prod.mk.injEq] at h
        obtain ⟨ha, hb⟩ := h
        subst ha
        subst hb
        cases a2 with
        | nil =>
          exfalso
          apply hp
          apply List.isPrefixOf_iff_prefix.mpr
          refine ⟨b2, ?_⟩
          rw [hl]
          simp
        | cons c2 a2' =>
          simp only [List.cons_append] at hl
          injection hl with h1 h2
          have hle := ih hfr a2' b2 h2
          simp only [List.length_cons]
          omega

theorem findHeader_isSome {l : List Char} (a b : List Char)
    (h : l = a ++ headerChars ++ b) : (findHeader l).isSome = true := by
  induction a generalizing l with
  | nil =>
    rw [List.nil_append] at h
    subst h
    have hp : headerChars.isPrefixOf (headerChars ++ b) = true :=
      List.isPrefixOf_iff_prefix.mpr ⟨b, rfl⟩
    have hcons : headerChars ++ b =
        '[' :: ("tool.pytest.ini_options]".data ++ b) := rfl
    rw [hcons, findHeader, ← hcons, if_pos hp]
    rfl
  | cons c a' ih =>
    subst h
    simp only [List.cons_append]
    rw [findHeader]
    by_cases hp : headerChars.isPrefixOf
        (c :: (a' ++ headerChars ++ b)) = true
    · rw [if_pos hp]; rfl
    · rw [if_neg hp]
      have hrec := ih rfl
      rcases hfr : findHeader (a' ++ headerChars ++ b) with _ | ⟨a0, b0⟩
      · rw [hfr] at hrec; simp at hrec
      · rfl

theorem findHeader_none_no_occurrence {l : List Char}
    (h : findHeader l = none) : ∀ a b, l ≠ a ++ headerChars ++ b := by
  intro a b hl
  have hs := findHeader_isSome a b hl
  rw [h] at hs
  simp at hs

theorem findHeader_pre_none {l a b : List Char}
    (h : findHeader l = some (a, b)) : findHeader a = none := by
  rcases hfa : findHeader a with _ | ⟨u, v⟩
  · rfl
  · exfalso
    have ha := findHeader_eq hfa
    have hl := findHeader_eq h
    have hmin := findHeader_min h u (v ++ headerChars ++ b)
      (by rw [hl, ha]; simp [List.append_assoc])
    have hlen : a.length = u.length + 25 + v.length := by
      rw [ha]
      simp [headerChars_length]
      omega
    omega

theorem findHeader_pre_headok {l a b : List Char} (hl : HeadOk l)
    (h : findHeader l = some (a, b)) : HeadOk a := by
  cases a with
  | nil => exact Or.inl rfl
  | cons c a' =>
    have heq := findHeader_eq h
    rcases hl with h0 | ⟨t, ht⟩
    · subst h0; simp at heq
    · rw [ht] at heq
      simp only [List.cons_append] at heq
      injection heq with h1 _
      exact Or.inr ⟨a', by rw [← h1]⟩

theorem headerChars_drop_head (i : Nat) (hi : 1 ≤ i) :
    (headerChars.drop i).head? ≠ some '[' := by
  by_cases h25 : i < 25
  · revert hi
    revert h25
    revert i
    decide
  · have hle : headerChars.length ≤ i := by rw [headerChars_length]; omega
    rw [List.drop_eq_nil_of_le hle]
    simp

theorem findHeader_append_none {a b : List Char}
    (ha : findHeader a = none) (hb : findHeader b = none) (hok : HeadOk b) :
    findHeader (a ++ b) = none := by
  rcases hab : findHeader (a ++ b) with _ | ⟨u, v⟩
  · rfl
  exfalso
  have heq := findHeader_eq hab
  rw [List.append_assoc] at heq
  rcases List.append_eq_append_iff.mp heq with ⟨w, hu, hbw⟩ | ⟨w, hau, hv⟩
  · exact findHeader_none_no_occurrence hb w v
      (by rw [hbw, List.append_assoc])
  · rcases List.append_eq_append_iff.mp hv with ⟨w2, hw, hvb⟩ | ⟨w2, hH, hb2⟩
  -- hv : headerChars ++ v = w ++ b
    · -- w = headerChars ++ w2 and v = w2 ++ b : occurrence inside a
      exact findHeader_none_no_occurrence ha u w2
        (by rw [hau, hw, List.append_assoc])
    · -- headerChars = w ++ w2 and b = w2 ++ v
      cases w2 with
      | nil =>
        -- w = headerChars, a = u ++ headerChars
        have hwH : w = headerChars := by rw [hH]; simp
        apply findHeader_none_no_occurrence ha u []
        rw [hau, hwH]
        simp
      | cons c2 w2' =>
        cases w with
        | nil =>
          -- b = headerChars ++ v
          apply findHeader_none_no_occurrence hb [] v
          simp only [List.nil_append] at hH
          rw [hb2, hH]
          simp
        | cons cw w' =>
          -- both parts non-empty: b starts with c2 which is an interior
          -- character of the header, but every gap starts with '['
          have hdrop : (headerChars.drop (cw :: w').length).head? =
              some c2 := by
            rw [hH, List.drop_left]
            rfl
          have hhead : c2 = '[' := by
            rcases hok with h0 | ⟨t, ht⟩
            · rw [h0] at hb2
              simp at hb2
            · rw [ht] at hb2
              simp only [List.cons_append] at hb2
              injection hb2 with h1 _
              exact h1.symm
          rw [hhead] at hdrop
          exact headerChars_drop_head (cw :: w').length (by simp) hdrop

theorem gaps_flatten_props {gs : List (List Char)}
    (h : ∀ g ∈ gs, findHeader g = none ∧ HeadOk g) :
    findHeader gs.flatten = none ∧ HeadOk gs.flatten := by
  induction gs with
  | nil => exact ⟨rfl, Or.inl rfl⟩
  | cons g rest ih =>
    have hg := h g (List.mem_cons_self _ _)
    have hrest := ih (fun g2 hg2 => h g2 (List.mem_cons_of_mem _ hg2))
    rw [List.flatten_cons]
    constructor
    · exact findHeader_append_none hg.1 hrest.1 hrest.2
    · rcases hg.2 with h0 | ⟨t, ht⟩
      · rw [h0, List.nil_append]
        exact hrest.2
      · rw [ht]
        exact Or.inr ⟨t ++ rest.flatten, by simp⟩

theorem splitAtLBrack_append {u : List Char} (v : List Char)
    (h : '[' ∉ u) :
    splitAtLBrack (u ++ v) =
      (u ++ (splitAtLBrack v).1, (splitAtLBrack v).2) := by
  induction u with
  | nil => simp
  | cons c rest ih =>
    simp only [List.mem_cons] at h
    push_neg at h
    rw [List.cons_append, splitAtLBrack,
      if_neg (fun hh => h.1 hh.symm)]
    rw [ih h.2]
    rfl

theorem splitAtLBrack_headok_eq {v : List Char} (h : HeadOk v) :
    splitAtLBrack v = ([], v) := by
  rcases h with h0 | ⟨t, ht⟩
  · subst h0; rfl
  · subst ht
    rw [splitAtLBrack, if_pos rfl]

theorem splitAtLBrack_no_lbrack (l : List Char) :
    '[' ∉ (splitAtLBrack l).1 := by
  induction l with
  | nil => simp [splitAtLBrack]
  | cons c rest ih =>
    rw [splitAtLBrack]
    by_cases hc : c = '['
    · rw [if_pos hc]; simp
    · rw [if_neg hc]
      simp only [List.mem_cons]
      push_neg
      exact ⟨fun hh => hc hh.symm, ih⟩

theorem splitAtLBrack_headok (l : List Char) :
    HeadOk (splitAtLBrack l).2 := by
  induction l with
  | nil => exact Or.inl rfl
  | cons c rest ih =>
    rw [splitAtLBrack]
    by_cases hc : c = '['
    · rw [if_pos hc]
      exact Or.inr ⟨rest, by rw [hc]⟩
    · rw [if_neg hc]
      exact ih

theorem splitAtLBrack_len (l : List Char) :
    (splitAtLBrack l).2.length ≤ l.length := by
  induction l with
  | nil => simp [splitAtLBrack]
  | cons c rest ih =>
    rw [splitAtLBrack]
    by_cases hc : c = '['
    · rw [if_pos hc]
    · rw [if_neg hc]
      simp only [List.length_cons]
      omega

theorem findHeader_tail_len {l a b : List Char}
    (h : findHeader l = some (a, b)) : b.length + 25 ≤ l.length := by
  have heq := findHeader_eq h
  have : l.length = a.length + 25 + b.length := by
    rw [heq]
    simp [headerChars_length]
    omega
  omega

theorem scan_pre_props :
    ∀ (fuel : Nat) (l : List Char), l.length < fuel → HeadOk l →
      findHeader (scanSectionsFuel fuel l).pre = none ∧
        HeadOk (scanSectionsFuel fuel l).pre := by
  intro fuel
  cases fuel with
  | zero => intro l h; omega
  | succ m =>
    intro l _ hok
    rw [scanSectionsFuel]
    rcases hfh : findHeader l with _ | ⟨a, b⟩
    · exact ⟨hfh, hok⟩
    · exact ⟨findHeader_pre_none hfh, findHeader_pre_headok hok hfh⟩

theorem scan_gaps_props :
    ∀ (fuel : Nat) (l : List Char), l.length < fuel →
      ∀ g ∈ (scanSectionsFuel fuel l).gaps,
        findHeader g = none ∧ HeadOk g := by
  intro fuel
  induction fuel with
  | zero => intro l h; omega
  | succ m ih =>
    intro l hlen g hg
    rw [scanSectionsFuel] at hg
    rcases hfh : findHeader l with _ | ⟨a, b⟩
    · rw [hfh] at hg
      simp at hg
    · rw [hfh] at hg
      simp only [List.mem_cons] at hg
      have hblen : b.length + 25 ≤ l.length := findHeader_tail_len hfh
      have hplen : (splitAtLBrack b).2.length < m := by
        have := splitAtLBrack_len b
        omega
      rcases hg with hg | hg
      · subst hg
        exact scan_pre_props m (splitAtLBrack b).2 hplen
          (splitAtLBrack_headok b)
      · exact ih (splitAtLBrack b).2 hplen g hg

theorem scan_bodies_props :
    ∀ (fuel : Nat) (l : List Char), l.length < fuel →
      ∀ bd ∈ (scanSectionsFuel fuel l).bodies, '[' ∉ bd := by
  intro fuel
  induction fuel with
  | zero => intro l h; omega
  | succ m ih =>
    intro l hlen bd hbd
    rw [scanSectionsFuel] at hbd
    rcases hfh : findHeader l with _ | ⟨a, b⟩
    · rw [hfh] at hbd
      simp at hbd
    · rw [hfh] at hbd
      simp only [List.mem_cons] at hbd
      have hblen : b.length + 25 ≤ l.length := findHeader_tail_len hfh
      have hplen : (splitAtLBrack b).2.length < m := by
        have := splitAtLBrack_len b
        omega
      rcases hbd with hbd | hbd
      · subst hbd
        exact splitAtLBrack_no_lbrack b
      · exact ih (splitAtLBrack b).2 hplen bd hbd

theorem pyStripChars_subset {c : Char} {l : List Char}
    (h : c ∈ pyStripChars l) : c ∈ l := by
  rw [pyStripChars] at h
  rw [List.mem_reverse] at h
  have h2 := (List.dropWhile_sublist _).subset h
  rw [List.mem_reverse] at h2
  exact (List.dropWhile_sublist _).subset h2

theorem splitLinesNL_subset {l : List Char} :
    ∀ line ∈ splitLinesNL l, ∀ c ∈ line, c ∈ l := by
  induction l with
  | nil =>
    intro line hline c hc
    simp [splitLinesNL] at hline
    subst hline
    simp at hc
  | cons c0 rest ih =>
    intro line hline c hc
    rw [splitLinesNL] at hline
    by_cases h0 : c0 = '\n'
    · rw [if_pos h0] at hline
      rcases List.mem_cons.mp hline with h | h
      · subst h; simp at hc
      · exact List.mem_cons_of_mem _ (ih line h c hc)
    · rw [if_neg h0] at hline
      rcases hsp : splitLinesNL rest with _ | ⟨l0, ls⟩
      · rw [hsp] at hline
        simp at hline
        subst hline
        simp at hc
        subst hc
        exact List.mem_cons_self _ _
      · rw [hsp] at hline
        rcases List.mem_cons.mp hline with h | h
        · subst h
          rcases List.mem_cons.mp hc with h2 | h2
          · subst h2; exact List.mem_cons_self _ _
          · refine List.mem_cons_of_mem _ ?_
            exact ih l0 (by rw [hsp]; exact List.mem_cons_self _ _) c h2
        · refine List.mem_cons_of_mem _ ?_
          exact ih line (by rw [hsp]; exact List.mem_cons_of_mem _ h) c hc

theorem splitFirstEq_subset {l k v : List Char}
    (h : splitFirstEq l = some (k, v)) :
    (∀ c ∈ k, c ∈ l) ∧ (∀ c ∈ v, c ∈ l) := by
  induction l generalizing k v with
  | nil => simp [splitFirstEq] at h
  | cons c0 rest ih =>
    rw [splitFirstEq] at h
    by_cases h0 : c0 = '='
    · rw [if_pos h0, Option.some.injEq, Prod.mk.injEq] at h
      obtain ⟨hk, hv⟩ := h
      subst hk
      subst hv
      constructor
      · intro c hc; simp at hc
      · intro c hc; exact List.mem_cons_of_mem _ hc
    · rw [if_neg h0] at h
      rcases hs : splitFirstEq rest with _ | ⟨k0, v0⟩
      · rw [hs] at h; simp at h
      · rw [hs, Option.some.injEq, Prod.mk.injEq] at h
        obtain ⟨hk, hv⟩ := h
        subst hk
        subst hv
        obtain ⟨ih1, ih2⟩ := ih hs
        constructor
        · intro c hc
          rcases List.mem_cons.mp hc with h2 | h2
          · subst h2; exact List.mem_cons_self _ _
          · exact List.mem_cons_of_mem _ (ih1 c h2)
        · intro c hc
          exact List.mem_cons_of_mem _ (ih2 c hc)

theorem parseLine_subset {line k v : List Char}
    (h : parseLine line = some (k, v)) :
    (∀ c ∈ k, c ∈ line) ∧ (∀ c ∈ v, c ∈ line) := by
  rw [parseLine] at h
  split at h
  · exact absurd h (by simp)
  split at h
  · exact absurd h (by simp)
  split at h
  · exact absurd h (by simp)
  rename_i k0 v0 hsp
  rw [Option.some.injEq, Prod.mk.injEq] at h
  obtain ⟨hk, hv⟩ := h
  subst hk
  subst hv
  obtain ⟨h1, h2⟩ := splitFirstEq_subset hsp
  constructor
  · intro c hc
    exact pyStripChars_subset (h1 c (pyStripChars_subset hc))
  · intro c hc
    exact pyStripChars_subset (h2 c (pyStripChars_subset hc))

theorem bodyPairs_no_lbrack {body : List Char} (h : '[' ∉ body) :
    ∀ kv ∈ bodyPairs body, '[' ∉ kv.1 ∧ '[' ∉ kv.2 := by
  intro kv hkv
  obtain ⟨k, v⟩ := kv
  rw [bodyPairs] at hkv
  obtain ⟨line, hline, hpl⟩ := List.mem_filterMap.mp hkv
  obtain ⟨h1, h2⟩ := parseLine_subset hpl
  constructor
  · intro hmem
    exact h (pyStripChars_subset (splitLinesNL_subset line hline _ (h1 _ hmem)))
  · intro hmem
    exact h (pyStripChars_subset (splitLinesNL_subset line hline _ (h2 _ hmem)))

theorem no_lbrack_startsLBrack {v : List Char} (h : '[' ∉ v) :
    startsLBrack v = false := by
  rw [startsLBrack]
  cases v with
  | nil => rfl
  | cons c rest =>
    simp only [List.mem_cons] at h
    push_neg at h
    simp only [List.head?_cons]
    simp only [Option.some.injEq, decide_eq_false_iff_not]
    intro hh
    exact h.1 hh.symm

theorem dlookup_mem {κ α : Type} [DecidableEq κ] {k : κ} {v : α}
    {l : List (κ × α)} (h : dlookup k l = some v) : (k, v) ∈ l := by
  induction l with
  | nil => simp [dlookup] at h
  | cons p rest ih =>
    obtain ⟨k2, v2⟩ := p
    rw [dlookup] at h
    by_cases hk : k2 = k
    · rw [if_pos hk, Option.some.injEq] at h
      subst hk
      subst h
      exact List.mem_cons_self _ _
    · rw [if_neg hk] at h
      exact List.mem_cons_of_mem _ (ih h)

theorem settings_fold_no_lbrack (pairs : List (List Char × List Char))
    (hpairs : ∀ kv ∈ pairs, '[' ∉ kv.1 ∧ '[' ∉ kv.2) :
    ∀ (acc : List (List Char × List Char)),
      (∀ kv ∈ acc, '[' ∉ kv.1 ∧ '[' ∉ kv.2) →
      ∀ kv ∈ pairs.foldl settingsStep acc, '[' ∉ kv.1 ∧ '[' ∉ kv.2 := by
  induction pairs with
  | nil =>
    intro acc hacc kv hkv
    rw [List.foldl_nil] at hkv
    exact hacc kv hkv
  | cons p rest ih =>
    intro acc hacc kv hkv
    rw [List.foldl_cons] at hkv
    refine ih (fun kv2 h2 => hpairs kv2 (List.mem_cons_of_mem _ h2))
      (settingsStep acc p) ?_ kv hkv
    intro kv2 hkv2
    have hp := hpairs p (List.mem_cons_self _ _)
    rw [settingsStep] at hkv2
    rcases hdl : dlookup p.1 acc with _ | old
    · rw [hdl] at hkv2
      rcases List.mem_append.mp hkv2 with h2 | h2
      · exact hacc kv2 h2
      · simp at h2
        subst h2
        exact hp
    · rw [hdl] at hkv2
      rw [no_lbrack_startsLBrack hp.2] at hkv2
      simp only [Bool.false_and, Bool.false_eq_true, if_false] at hkv2
      exact hacc kv2 hkv2

theorem mergeAllSettings_no_lbrack {bodies : List (List Char)}
    (h : ∀ bd ∈ bodies, '[' ∉ bd) :
    ∀ kv ∈ mergeAllSettings bodies, '[' ∉ kv.1 ∧ '[' ∉ kv.2 := by
  rw [mergeAllSettings]
  apply settings_fold_no_lbrack
  · intro kv hkv
    obtain ⟨pl, hpl, hkv2⟩ := List.mem_flatten.mp hkv
    obtain ⟨bd, hbd, hpl2⟩ := List.mem_map.mp hpl
    subst hpl2
    exact bodyPairs_no_lbrack (h bd hbd) kv hkv2
  · intro kv hkv
    simp at hkv

theorem renderSettings_no_lbrack {settings : List (List Char × List Char)}
    (h : ∀ kv ∈ settings, '[' ∉ kv.1 ∧ '[' ∉ kv.2) :
    '[' ∉ renderSettings settings := by
  induction settings with
  | nil => simp [renderSettings]
  | cons kv rest ih =>
    obtain ⟨k, v⟩ := kv
    have hkv := h _ (List.mem_cons_self _ _)
    rw [renderSettings]
    intro hmem
    rcases List.mem_append.mp hmem with h2 | h2
    · exact hkv.1 h2
    · simp only [List.mem_cons] at h2
      rcases h2 with h2 | h2 | h2 | h2
      · exact absurd h2 (by decide)
      · exact absurd h2 (by decide)
      · exact absurd h2 (by decide)
      · rcases List.mem_append.mp h2 with h3 | h3
        · exact hkv.2 h3
        · simp only [List.mem_cons] at h3
          rcases h3 with h3 | h3
          · exact absurd h3 (by decide)
          · exact ih (fun kv2 hk2 => h kv2 (List.mem_cons_of_mem _ hk2)) h3

theorem findHeader_first_transfer {a x : List Char} (y : List Char)
    (h : findHeader (a ++ headerChars ++ x) = some (a, x)) :
    findHeader (a ++ headerChars ++ y) = some (a, y) := by
  have hsome := findHeader_isSome a y (rfl : a ++ headerChars ++ y = _)
  rcases hy : findHeader (a ++ headerChars ++ y) with _ | ⟨a2, b2⟩
  · rw [hy] at hsome; simp at hsome
  have heq := findHeader_eq hy
  have hle := findHeader_min hy a y rfl
  by_cases hlen : a2.length = a.length
  · have heq2 : a2 ++ (headerChars ++ b2) = a ++ (headerChars ++ y) := by
      rw [← List.append_assoc, ← List.append_assoc, ← heq]
    obtain ⟨ha2, hb2⟩ := List.append_inj heq2 hlen
    have hb2y : b2 = y := List.append_cancel_left hb2
    rw [ha2, hb2y]
  · have hlt : a2.length < a.length := by omega
    have hpre1 : (a2 ++ headerChars) <+: (a ++ headerChars ++ y) :=
      ⟨b2, by rw [heq]⟩
    have hpre2 : (a ++ headerChars) <+: (a ++ headerChars ++ y) := ⟨y, rfl⟩
    have hpre3 : (a2 ++ headerChars) <+: (a ++ headerChars) :=
      List.prefix_of_prefix_length_le hpre1 hpre2 (by simp; omega)
    obtain ⟨w, hw⟩ := hpre3
    have hxw : a ++ headerChars ++ x = a2 ++ headerChars ++ (w ++ x) := by
      rw [← hw]
      simp [List.append_assoc]
    have hmin := findHeader_min h a2 (w ++ x) hxw
    omega

/-- C9: `fix_duplicate_sections` is idempotent on the primary file content:
with at most one matched section it reports no duplicates, returns `False`
and leaves the content unchanged; and a second run on any output of a first
run is such a no-op. -/
theorem fix_duplicate_idempotent :
    ∀ content : List Char,
      ((scanSections content).bodies.length ≤ 1 →
        fixDup content = (false, content)) ∧
      fixDup ((fixDup content).2) = (false, (fixDup content).2) := by
  intro content
  have hpart1 : (scanSections content).bodies.length ≤ 1 →
      fixDup content = (false, content) := by
    intro h1
    rw [fixDup, if_pos h1]
  refine ⟨hpart1, ?_⟩
  by_cases h1 : (scanSections content).bodies.length ≤ 1
  · rw [hpart1 h1]
    exact hpart1 h1
  push_neg at h1
  have hfix : fixDup content = (true,
      (scanSections content).pre ++ mergedSectionFor (scanSections content).bodies
        ++ '\n' :: (scanSections content).gaps.flatten) := by
    rw [fixDup, if_neg (by omega)]
  rw [hfix]
  obtain ⟨a, b, hfh⟩ : ∃ a b, findHeader content = some (a, b) := by
    rcases hx : findHeader content with _ | ⟨a, b⟩
    · exfalso
      have hempty : scanSections content = ⟨content, [], []⟩ := by
        rw [scanSections, scanSectionsFuel, hx]
      rw [hempty] at h1
      simp at h1
    · exact ⟨a, b, rfl⟩
  have hpre : (scanSections content).pre = a := by
    rw [scanSections, scanSectionsFuel, hfh]
  -- shorthand for the merged tail
  have hbody : ∀ bd ∈ (scanSections content).bodies, '[' ∉ bd :=
    scan_bodies_props (content.length + 1) content (by omega)
  have hgap : ∀ g ∈ (scanSections content).gaps,
      findHeader g = none ∧ HeadOk g :=
    scan_gaps_props (content.length + 1) content (by omega)
  have hG := gaps_flatten_props hgap
  have hR : '[' ∉ renderSettings (mergeAllSettings (scanSections content).bodies) :=
    renderSettings_no_lbrack (mergeAllSettings_no_lbrack hbody)
  -- the fixed content has the shape a ++ headerChars ++ T
  have hfixed : (scanSections content).pre ++
      mergedSectionFor (scanSections content).bodies ++
      '\n' :: (scanSections content).gaps.flatten =
      a ++ headerChars ++
        (('\n' :: renderSettings (mergeAllSettings (scanSections content).bodies)) ++
          '\n' :: (scanSections content).gaps.flatten) := by
    rw [hpre, mergedSectionFor]
    simp [List.append_assoc]
  rw [hfixed]
  -- the first occurrence in the fixed content is still at position |a|
  have hcontent : content = a ++ headerChars ++ b := findHeader_eq hfh
  have hx2 : findHeader (a ++ headerChars ++ b) = some (a, b) := by
    rw [← hcontent]
    exact hfh
  have hfh2 := findHeader_first_transfer
    (('\n' :: renderSettings (mergeAllSettings (scanSections content).bodies)) ++
      '\n' :: (scanSections content).gaps.flatten) hx2
  -- split the tail at the first bracket: everything before the gaps is
  -- bracket-free, and the joined gaps are empty or start with a bracket
  have hufree : '[' ∉
      ('\n' :: renderSettings (mergeAllSettings (scanSections content).bodies)
        ++ ['\n']) := by
    intro hmem
    simp only [List.cons_append, List.mem_cons] at hmem
    rcases hmem with hmem | hmem
    · exact absurd hmem (by decide)
    · rcases List.mem_append.mp hmem with hmem | hmem
      · exact hR hmem
      · simp at hmem
  have hTdecomp :
      ('\n' :: renderSettings (mergeAllSettings (scanSections content).bodies)) ++
        '\n' :: (scanSections content).gaps.flatten =
      ('\n' :: renderSettings (mergeAllSettings (scanSections content).bodies)
        ++ ['\n']) ++ (scanSections content).gaps.flatten := by
    simp
  have hsplitT : splitAtLBrack
      (('\n' :: renderSettings (mergeAllSettings (scanSections content).bodies)) ++
        '\n' :: (scanSections content).gaps.flatten) =
      ('\n' :: renderSettings (mergeAllSettings (scanSections content).bodies)
        ++ ['\n'], (scanSections content).gaps.flatten) := by
    rw [hTdecomp, splitAtLBrack_append _ hufree,
      splitAtLBrack_headok_eq hG.2]
    simp
  -- scan the fixed content: exactly one match
  rw [fixDup]
  have hlenpos : ∃ m, (a ++ headerChars ++
      (('\n' :: renderSettings (mergeAllSettings (scanSections content).bodies)) ++
        '\n' :: (scanSections content).gaps.flatten)).length = m + 1 := by
    refine ⟨(a ++ headerChars ++
      (('\n' :: renderSettings (mergeAllSettings (scanSections content).bodies)) ++
        '\n' :: (scanSections content).gaps.flatten)).length - 1, ?_⟩
    have : 0 < (a ++ headerChars ++
      (('\n' :: renderSettings (mergeAllSettings (scanSections content).bodies)) ++
        '\n' :: (scanSections content).gaps.flatten)).length := by
      simp
    omega
  obtain ⟨m, hm⟩ := hlenpos
  have hscan2 : scanSections (a ++ headerChars ++
      (('\n' :: renderSettings (mergeAllSettings (scanSections content).bodies)) ++
        '\n' :: (scanSections content).gaps.flatten)) =
      ⟨a, ['\n' :: renderSettings (mergeAllSettings (scanSections content).bodies)
        ++ ['\n']], [(scanSections content).gaps.flatten]⟩ := by
    rw [scanSections, hm, scanSectionsFuel, hfh2]
    dsimp only
    rw [hsplitT]
    dsimp only
    cases m with
    | zero =>
      -- fuel 0 for the recursive call would mean the fixed content has
      -- length one; impossible since it contains the whole header
      exfalso
      simp [headerChars_length] at hm
      omega
    | succ m2 =>
      rw [scanSectionsFuel, hG.1]
  rw [hscan2]
  simp

/-- Witness for C9: a file with no duplicate section is reported unchanged,
and re-running the repairer on the output of a real fix is a no-op. -/
theorem fix_duplicate_idempotent_witness :
    fixDup ("x = 1\n".data) = (false, "x = 1\n".data) ∧
    fixDup ((fixDup
      ("[tool.pytest.ini_options]\nminversion = 6.0\n\n[tool.pytest.ini_options]\naddopts = \"-ra\"\n".data)).2) =
      (false, (fixDup
        ("[tool.pytest.ini_options]\nminversion = 6.0\n\n[tool.pytest.ini_options]\naddopts = \"-ra\"\n".data)).2) :=
  ⟨(fix_duplicate_idempotent ("x = 1\n".data)).1 (by decide),
   (fix_duplicate_idempotent
     ("[tool.pytest.ini_options]\nminversion = 6.0\n\n[tool.pytest.ini_options]\naddopts = \"-ra\"\n".data)).2⟩

/-- C3 (evidence of the code bug): on a file with two
`[tool.pytest.ini_options]` sections whose `testpaths` keys hold the arrays
`["tests"]` and `["unit"]`, the section regex `(.*?)(?=\[|\Z)` stops each
section body at the first `[` character, so both occurrences parse as
`testpaths` with an empty value.  The repair therefore keeps the first empty
value — `testpaths = ` — instead of the union `["tests", "unit"]` promised
by the specification, and the stray array text is left dangling after the
merged section. -/
theorem fix_duplicate_array_failing_input :
    fixDup ("[tool.pytest.ini_options]\ntestpaths = [\"tests\"]\n[tool.pytest.ini_options]\ntestpaths = [\"unit\"]\n".data) =
      (true,
       "[tool.pytest.ini_options]\ntestpaths = \n\n[\"tests\"]\n[\"unit\"]\n".data) ∧
    mergeAllSettings (scanSections
      "[tool.pytest.ini_options]\ntestpaths = [\"tests\"]\n[tool.pytest.ini_options]\ntestpaths = [\"unit\"]\n".data).bodies =
      [("testpaths".data, [])] := by
  constructor
  · decide
  · decide
